import Mathlib

/-!
Verification of the efficient_route_planning engine (Rust) against its
specification, over a shallow embedding of the source in Lean 4.

Conventions of the embedding:
* Rust `i64` is modelled as `Int` (the spec notes callers must keep sums
  representable; no claim here exercises wrap-around), with
  `i64::max_value()` kept as the explicit constant `I64MAX` where the
  source uses it as an "infinity" default.
* `f64` node coordinates are modelled as `Rat`: the sources only ever
  compare coordinates (`Rect::contains`), never do float arithmetic on
  them, and all concrete coordinates are decimal literals, on which the
  float comparisons agree with the rational ones.
* `HashMap` is modelled as an association list with overwrite-on-insert
  (`insertKV`) and `lookupKV`; `HashSet`/iteration order is the list
  order (the spec §5 declares reported costs independent of such order).
* `BinaryHeap` (a max-heap over records whose `Ord` is reversed, hence a
  min-heap by cost) is modelled as a list with `popMin`, which removes
  the earliest element of minimal cost; ties among equal priorities are
  implementation-defined in the source (spec §4.2), so one deterministic
  choice is taken.
* Loops that are not structurally terminating in the source (the search
  loop of pathfinder.rs / dijkstra.rs / a_star.rs and the lazy-update
  contraction loop of contraction.rs) take an explicit fuel argument and
  return `Option`; `none` means the fuel ran out, and theorems are
  stated for runs that return `some`.
* Rust panics (out-of-bounds indexing, `unwrap` on `None`) are modelled
  as `none`.
-/

/-! # pareto_sets.rs -/

/-- The four outcomes of the 2-dimensional componentwise comparison
(`PartialOrdering` in pareto_sets.rs). -/
inductive PartialOrdering where
  | Less
  | Equal
  | Greater
  | Incomparable
deriving DecidableEq, Repr

/-- A two-dimensional cost pair (`pub type Cost = (i64, i64)`). -/
abbrev Cost := Int × Int

/-- `i64::cmp` on the embedded integers. -/
def icmp (a b : Int) : Ordering :=
  if a < b then .lt else if a = b then .eq else .gt

/-- `partial_cmp` of pareto_sets.rs: componentwise comparison of two cost
pairs via the match on `(x1.cmp(&x2), y1.cmp(&y2))`. -/
def partial_cmp (c₁ c₂ : Cost) : PartialOrdering :=
  match icmp c₁.1 c₂.1, icmp c₁.2 c₂.2 with
  | .eq, .eq => .Equal
  | .lt, .eq => .Less
  | .eq, .lt => .Less
  | .lt, .lt => .Less
  | .gt, .eq => .Greater
  | .eq, .gt => .Greater
  | .gt, .gt => .Greater
  | .lt, .gt => .Incomparable
  | .gt, .lt => .Incomparable

/-- The element-by-element walk of `insert_element` (the `for elem in
ordered_pareto` loop with its `compare` flag): once a branch other than
the final `else` fires, `compare` is false and the remaining elements are
pushed unchanged, which is the `ne :: e :: rest` / `ne :: rest` /
`e :: rest` shapes below. -/
def insert_walk (ne : Cost) : List Cost → List Cost
  | [] => [ne]
  | e :: rest =>
    if ne.1 ≤ e.1 ∧ ne.2 ≥ e.2 then ne :: e :: rest
    else if partial_cmp ne e = .Less then ne :: rest
    else if partial_cmp ne e = .Greater then e :: rest
    else e :: insert_walk ne rest

/-- `insert_element` of pareto_sets.rs.  On the empty list the source
indexes `ordered_pareto[length - 1]` with `length = 0`, which panics
(usize underflow / out of bounds); this is modelled as `none`. -/
def insert_element (ordered_pareto : List Cost) (new_element : Cost) :
    Option (List Cost) :=
  match ordered_pareto with
  | [] => none
  | first :: rest =>
    let largest_x := ((first :: rest).getLast?).getD first |>.1
    let largest_y := first.2
    if new_element.1 ≥ largest_x ∧ new_element.2 ≥ largest_y then
      some (first :: rest)
    else
      some (insert_walk new_element (first :: rest))

/-! characterizations of `partial_cmp` -/

theorem icmp_eq_lt {a b : Int} : icmp a b = .lt ↔ a < b := by
  unfold icmp; split_ifs <;> simp_all <;> omega

theorem icmp_eq_eq {a b : Int} : icmp a b = .eq ↔ a = b := by
  unfold icmp; split_ifs <;> simp_all <;> omega

theorem icmp_eq_gt {a b : Int} : icmp a b = .gt ↔ b < a := by
  unfold icmp; split_ifs <;> simp_all <;> omega

theorem partial_cmp_less_iff {c₁ c₂ : Cost} :
    partial_cmp c₁ c₂ = .Less ↔ (c₁.1 ≤ c₂.1 ∧ c₁.2 ≤ c₂.2 ∧ c₁ ≠ c₂) := by
  unfold partial_cmp
  rcases h₁ : icmp c₁.1 c₂.1 <;> rcases h₂ : icmp c₁.2 c₂.2 <;>
    simp only [icmp_eq_lt, icmp_eq_eq, icmp_eq_gt] at h₁ h₂ <;>
    simp_all [Prod.ext_iff] <;> omega

theorem partial_cmp_greater_iff {c₁ c₂ : Cost} :
    partial_cmp c₁ c₂ = .Greater ↔ (c₂.1 ≤ c₁.1 ∧ c₂.2 ≤ c₁.2 ∧ c₁ ≠ c₂) := by
  unfold partial_cmp
  rcases h₁ : icmp c₁.1 c₂.1 <;> rcases h₂ : icmp c₁.2 c₂.2 <;>
    simp only [icmp_eq_lt, icmp_eq_eq, icmp_eq_gt] at h₁ h₂ <;>
    simp_all [Prod.ext_iff] <;> omega

example : insert_element [(1, 5), (2, 4), (4, 3), (7, 1)] (5, 2) =
    some [(1, 5), (2, 4), (4, 3), (5, 2), (7, 1)] := by decide

example : insert_element [(1, 5), (2, 4), (4, 3), (7, 1)] (4, 4) =
    some [(1, 5), (2, 4), (4, 3), (7, 1)] := by decide

example : insert_element [(1, 5), (2, 4), (4, 3), (7, 1)] (0, 6) =
    some [(0, 6), (1, 5), (2, 4), (4, 3), (7, 1)] := by decide

example : insert_element [(1, 5), (2, 4), (4, 3), (7, 1)] (3, 2) =
    some [(1, 5), (2, 4), (3, 2), (7, 1)] := by decide

/-- The sortedness invariant of pareto lists: strictly increasing first
coordinates and strictly decreasing second coordinates (spec §4.9). -/
def SortedPareto (l : List Cost) : Prop :=
  List.Chain' (fun p q => p.1 < q.1 ∧ q.2 < p.2) l

instance : IsTrans Cost fun p q : Cost => p.1 < q.1 :=
  ⟨fun _ _ _ h₁ h₂ => lt_trans h₁ h₂⟩

theorem sortedPareto_pair (p q : Cost) (h1 : p.1 < q.1) (h2 : q.2 < p.2) :
    SortedPareto [p, q] :=
  List.chain'_cons.mpr ⟨⟨h1, h2⟩, List.chain'_singleton q⟩

/-- Walking past a prefix whose elements are strictly left-below the new
element (the only case in which the loop keeps comparing), the first
element `e` weakly above `ne` with strictly larger second coordinate is
replaced by `ne`, and everything after it is copied unchanged. -/
theorem insert_walk_prefix (ne e : Cost) (post : List Cost) :
    ∀ pre : List Cost, (∀ a ∈ pre, a.1 < ne.1 ∧ ne.2 < a.2) →
    ne.1 ≤ e.1 → ne.2 < e.2 →
    insert_walk ne (pre ++ e :: post) = pre ++ ne :: post := by
  intro pre
  induction pre with
  | nil =>
    intro _ hx hy
    show insert_walk ne (e :: post) = ne :: post
    rw [insert_walk, if_neg (by omega), if_pos]
    rw [partial_cmp_less_iff]
    refine ⟨hx, le_of_lt hy, ?_⟩
    intro hcon
    rw [hcon] at hy
    omega
  | cons a pre' ih =>
    intro hpre hx hy
    have ha := hpre a (by simp)
    show insert_walk ne (a :: (pre' ++ e :: post)) = a :: (pre' ++ ne :: post)
    rw [insert_walk, if_neg (by omega), if_neg, if_neg]
    · rw [ih (fun b hb => hpre b (by simp [hb])) hx hy]
    · rw [partial_cmp_greater_iff]
      rintro ⟨-, h2, -⟩
      omega
    · rw [partial_cmp_less_iff]
      rintro ⟨h1, -, -⟩
      omega

/-- C4 (amended): when the walk reaches the first element `e` with
`new ≤ e` componentwise and `new` strictly smaller in the second
coordinate, the returned list contains `new` in place of `e`, and every
subsequent element of the input — dominated by `new` or not — is kept
unchanged (the walk stops comparing after the replacement). -/
theorem insert_element_less_replaces_only_first (pre post : List Cost) (e ne : Cost)
    (hpre : ∀ a ∈ pre, a.1 < ne.1 ∧ ne.2 < a.2)
    (hx : ne.1 ≤ e.1) (hy : ne.2 < e.2) :
    insert_element (pre ++ e :: post) ne = some (pre ++ ne :: post) := by
  have hwalk := insert_walk_prefix ne e post pre hpre hx hy
  cases pre with
  | nil =>
    simp only [List.nil_append] at hwalk ⊢
    rw [insert_element, if_neg (by omega), hwalk]
  | cons a pre' =>
    have ha := hpre a (by simp)
    simp only [List.cons_append] at hwalk ⊢
    rw [insert_element, if_neg (by omega), hwalk]

/-- C4 witness: a concrete replacement where the tail is kept. -/
theorem insert_element_less_replaces_only_first_witness :
    (∀ a ∈ [((1 : Int), (9 : Int))], a.1 < (2 : Int) ∧ (3 : Int) < a.2) ∧
    (2 : Int) ≤ 2 ∧ (3 : Int) < 4 ∧
    insert_element [(1, 9), (2, 4), (5, 1)] (2, 3) = some [(1, 9), (2, 3), (5, 1)] :=
  ⟨by decide, by decide, by decide,
    insert_element_less_replaces_only_first [(1, 9)] [(5, 1)] (2, 4) (2, 3)
      (by decide) (by decide) (by decide)⟩

/-- C4 counterexample: inserting (1,1) into [(2,4),(3,1)] replaces the
first dominated element (2,4), but the subsequent element (3,1), also
dominated by (1,1) (componentwise ≤ with strict first coordinate), stays
in the returned list — the claim says it must be absent. -/
theorem insert_element_keeps_dominated_tail_cex :
    insert_element [(2, 4), (3, 1)] (1, 1) = some [(1, 1), (3, 1)] ∧
    partial_cmp (1, 1) (2, 4) = .Less ∧
    partial_cmp (1, 1) (3, 1) = .Less ∧
    ((3, 1) : Cost) ∈ [((1 : Int), (1 : Int)), (3, 1)] := by decide

/-- If some element of the list lies strictly to the left of and weakly
below `ne`, the walk reaches a `Greater` outcome before any insertion
branch can fire, and returns the list unchanged. -/
theorem insert_walk_eq_self (ne : Cost) :
    ∀ l : List Cost, List.Pairwise (fun p q : Cost => p.1 < q.1) l →
    (∃ e ∈ l, e.1 < ne.1 ∧ e.2 ≤ ne.2) → insert_walk ne l = l := by
  intro l
  induction l with
  | nil => rintro - ⟨e, he, -⟩; exact absurd he (by simp)
  | cons a rest ih =>
    rintro hp ⟨e, he, hex, hey⟩
    have hax : a.1 < ne.1 := by
      rcases List.mem_cons.mp he with rfl | hmem
      · exact hex
      · exact lt_trans ((List.pairwise_cons.mp hp).1 e hmem) hex
    rw [insert_walk, if_neg (by omega), if_neg]
    · by_cases hg : partial_cmp ne a = .Greater
      · rw [if_pos hg]
      · rw [if_neg hg]
        rcases List.mem_cons.mp he with rfl | hmem
        · exact absurd (partial_cmp_greater_iff.mpr
            ⟨le_of_lt hex, hey, fun hcon => by rw [hcon] at hex; omega⟩) hg
        · rw [ih (List.pairwise_cons.mp hp).2 ⟨e, hmem, hex, hey⟩]
    · rw [partial_cmp_less_iff]
      rintro ⟨h1, -, -⟩
      omega

/-- If no element of the list is weakly below `ne`, the walk inserts `ne`
somewhere: no `Greater` outcome can fire, and falling off the end appends. -/
theorem insert_walk_mem (ne : Cost) :
    ∀ l : List Cost, (∀ e ∈ l, ¬(e.1 ≤ ne.1 ∧ e.2 ≤ ne.2)) →
    ne ∈ insert_walk ne l := by
  intro l
  induction l with
  | nil => intro _; simp [insert_walk]
  | cons a rest ih =>
    intro hnd
    have hna := hnd a (by simp)
    rw [insert_walk]
    split_ifs with h1 h2 h3
    · simp
    · simp
    · exact absurd (partial_cmp_greater_iff.mp h3) (by
        rintro ⟨hx, hy, -⟩
        exact hna ⟨hx, hy⟩)
    · exact List.mem_cons_of_mem a (ih (fun e he => hnd e (by simp [he])))

/-- The head of a walk over a cons is either the new element or the old head. -/
theorem insert_walk_head (ne a : Cost) (rest : List Cost) :
    ∃ tl, (insert_walk ne (a :: rest) = ne :: tl ∨ insert_walk ne (a :: rest) = a :: tl) := by
  rw [insert_walk]
  split_ifs
  · exact ⟨a :: rest, Or.inl rfl⟩
  · exact ⟨rest, Or.inl rfl⟩
  · exact ⟨rest, Or.inr rfl⟩
  · exact ⟨insert_walk ne rest, Or.inr rfl⟩

/-- If no element of the list is weakly below `ne`, the walk keeps the
first coordinates strictly increasing. -/
theorem insert_walk_chain (ne : Cost) :
    ∀ l : List Cost, SortedPareto l → (∀ e ∈ l, ¬(e.1 ≤ ne.1 ∧ e.2 ≤ ne.2)) →
    List.Chain' (fun p q : Cost => p.1 < q.1) (insert_walk ne l) := by
  intro l
  induction l with
  | nil => intro _ _; simp [insert_walk]
  | cons a rest ih =>
    intro hs hnd
    have hna := hnd a (by simp)
    have hs' : SortedPareto rest := (List.chain'_cons'.mp hs).2
    have hchx : List.Chain' (fun p q : Cost => p.1 < q.1) (a :: rest) :=
      List.Chain'.imp (fun p q h => h.1) hs
    rw [insert_walk]
    split_ifs with h1 h2 h3
    · -- ne goes in front of a
      have hlt : ne.1 < a.1 := by
        rcases lt_or_eq_of_le h1.1 with h | h
        · exact h
        · exact absurd ⟨le_of_eq h.symm, h1.2⟩ hna
      exact List.chain'_cons'.mpr ⟨fun y hy => by
        simp only [List.head?_cons, Option.mem_def, Option.some.injEq] at hy
        subst hy
        omega, hchx⟩
    · -- ne replaces a
      refine List.chain'_cons'.mpr ⟨fun y hy => ?_, (List.chain'_cons'.mp hchx).2⟩
      have hx : ne.1 ≤ a.1 := (partial_cmp_less_iff.mp h2).1
      cases rest with
      | nil => simp at hy
      | cons b rest' =>
        have hab : a.1 < b.1 := (List.chain'_cons.mp hchx).1
        simp only [List.head?_cons, Option.mem_def, Option.some.injEq] at hy
        subst hy
        omega
    · exact absurd (partial_cmp_greater_iff.mp h3) (by
        rintro ⟨hx, hy, -⟩
        exact hna ⟨hx, hy⟩)
    · -- a kept, walk continues in rest
      have hax : a.1 < ne.1 := by
        by_contra hcon
        push_neg at hcon
        rcases le_or_lt a.2 ne.2 with h | h
        · exact hna ⟨by omega, h⟩
        · exact h2 (partial_cmp_less_iff.mpr ⟨by omega, by omega, fun hc => by
            rw [hc] at h; omega⟩)
      refine List.chain'_cons'.mpr ⟨fun y hy => ?_,
        ih hs' (fun e he => hnd e (by simp [he]))⟩
      cases rest with
      | nil =>
        simp only [insert_walk, List.head?_cons, Option.mem_def, Option.some.injEq] at hy
        subst hy
        omega
      | cons b rest' =>
        have hab : a.1 < b.1 := (List.chain'_cons.mp hchx).1
        rcases insert_walk_head ne b rest' with ⟨tl, hw | hw⟩ <;>
        · rw [hw] at hy
          simp only [List.head?_cons, Option.mem_def, Option.some.injEq] at hy
          subst hy
          omega

/-- The defaulted last element of a cons list is a member of it. -/
theorem getLast_getD_mem (a : Cost) (l : List Cost) :
    ((a :: l).getLast?).getD a ∈ a :: l := by
  induction l generalizing a with
  | nil => simp
  | cons b l' ih =>
    rw [List.getLast?_cons_cons]
    exact List.mem_cons_of_mem a (ih b)

/-- C5 (amended): on a sorted pareto list, `insert_element` returns the
list unchanged when some element is componentwise weakly below the new
pair with a strictly smaller first coordinate; when no element is
componentwise ≤ the new pair, the result contains the new pair and its
first coordinates remain strictly increasing.  (As stated, the claim is
false: the result need not be strictly longer in the second case — a
`Less` outcome replaces an element, keeping the length — and the second
coordinates need not remain strictly decreasing; see the counterexample.) -/
theorem insert_element_dominance_spec (l : List Cost) (ne : Cost) (hne : l ≠ [])
    (hs : SortedPareto l) :
    ((∃ e ∈ l, e.1 < ne.1 ∧ e.2 ≤ ne.2) → insert_element l ne = some l) ∧
    ((∀ e ∈ l, ¬(e.1 ≤ ne.1 ∧ e.2 ≤ ne.2)) →
      ∃ l', insert_element l ne = some l' ∧ ne ∈ l' ∧
        List.Chain' (fun p q : Cost => p.1 < q.1) l') := by
  cases l with
  | nil => exact absurd rfl hne
  | cons first rest =>
    have hp : List.Pairwise (fun p q : Cost => p.1 < q.1) (first :: rest) :=
      List.chain'_iff_pairwise.mp (List.Chain'.imp (fun p q h => h.1) hs)
    constructor
    · rintro ⟨e, he, hex, hey⟩
      rw [insert_element]
      split_ifs with h1
      · rfl
      · rw [insert_walk_eq_self ne (first :: rest) hp ⟨e, he, hex, hey⟩]
    · intro hnd
      have hcond : ¬(ne.1 ≥ (((first :: rest).getLast?).getD first).1 ∧ ne.2 ≥ first.2) := by
        rintro ⟨hgx, hgy⟩
        have hmem := getLast_getD_mem first rest
        have hfle : first.1 ≤ (((first :: rest).getLast?).getD first).1 := by
          rcases List.mem_cons.mp hmem with h | h
          · rw [h]
          · exact le_of_lt ((List.pairwise_cons.mp hp).1 _ h)
        exact hnd first (by simp) ⟨le_trans hfle hgx, hgy⟩
      rw [insert_element, if_neg hcond]
      exact ⟨insert_walk ne (first :: rest), rfl,
        insert_walk_mem ne (first :: rest) hnd,
        insert_walk_chain ne (first :: rest) hs hnd⟩

/-- C5 witness: both branches of the amended statement at concrete inputs. -/
theorem insert_element_dominance_spec_witness :
    ([((1 : Int), (5 : Int)), (3, 3)] ≠ []) ∧ SortedPareto [(1, 5), (3, 3)] ∧
    insert_element [(1, 5), (3, 3)] (2, 6) = some [(1, 5), (3, 3)] ∧
    (∃ l', insert_element [(1, 5), (3, 3)] (2, 2) = some l' ∧ ((2 : Int), (2 : Int)) ∈ l' ∧
      List.Chain' (fun p q : Cost => p.1 < q.1) l') :=
  ⟨by decide, sortedPareto_pair (1, 5) (3, 3) (by decide) (by decide),
    (insert_element_dominance_spec [(1, 5), (3, 3)] (2, 6) (by decide)
      (sortedPareto_pair (1, 5) (3, 3) (by decide) (by decide))).1
      ⟨(1, 5), by decide, by decide⟩,
    (insert_element_dominance_spec [(1, 5), (3, 3)] (2, 2) (by decide)
      (sortedPareto_pair (1, 5) (3, 3) (by decide) (by decide))).2
      (by decide)⟩

/-- C5 counterexample: inserting the undominated pair (1,0) into the
sorted pareto list [(2,4),(3,1)] yields [(1,0),(3,1)]: the result is not
strictly longer than the input, and its second coordinates are not
strictly decreasing (0 followed by 1), contradicting the claim. -/
theorem insert_element_growth_sortedness_cex :
    insert_element [(2, 4), (3, 1)] (1, 0) = some [(1, 0), (3, 1)] ∧
    SortedPareto [(2, 4), (3, 1)] ∧
    (¬((2 : Int) ≤ 1 ∧ (4 : Int) ≤ 0)) ∧ (¬((3 : Int) ≤ 1 ∧ (1 : Int) ≤ 0)) ∧
    ([((1 : Int), (0 : Int)), (3, 1)].length = [((2 : Int), (4 : Int)), (3, 1)].length) ∧
    ¬((1 : Int) < 0) :=
  ⟨by decide, sortedPareto_pair (2, 4) (3, 1) (by decide) (by decide),
    by decide, by decide, by decide, by decide⟩

/-- C10: `insert_element` panics exactly on the empty list (modelled as
`none`: the source indexes position `length - 1`, which underflows); on
any non-empty list it totally computes a result. -/
theorem insert_element_total_iff_nonempty (l : List Cost) (ne : Cost) :
    (l = [] → insert_element l ne = none) ∧
    (l ≠ [] → ∃ r, insert_element l ne = some r) := by
  constructor
  · rintro rfl; rfl
  · intro hl
    cases l with
    | nil => exact absurd rfl hl
    | cons a rest =>
      rw [insert_element]
      split_ifs
      · exact ⟨_, rfl⟩
      · exact ⟨_, rfl⟩

/-- C10 witness: the panic on `[]` and totality on a concrete non-empty list. -/
theorem insert_element_total_iff_nonempty_witness :
    insert_element [] (1, 2) = none ∧
    ([((1 : Int), (1 : Int))] ≠ []) ∧
    (∃ r, insert_element [(1, 1)] (0, 0) = some r) :=
  ⟨(insert_element_total_iff_nonempty [] (1, 2)).1 rfl, by decide,
    (insert_element_total_iff_nonempty [(1, 1)] (0, 0)).2 (by decide)⟩

/-! # graph_from_gtfs.rs node identity and transfer_patterns.rs smoothing -/

/-- `NodeType` of graph_from_gtfs.rs. -/
inductive NodeType where
  | Arrival
  | Departure
  | Transfer
deriving DecidableEq, Repr

/-- `GtfsId` of graph_from_gtfs.rs: the time-expanded transit node key
`(stop_id, time of day in seconds, kind, optional trip id)`. -/
structure GtfsId where
  stop_id : String
  time : Int
  node_type : NodeType
  trip_id : Option String
deriving DecidableEq, Repr

/-- The settlement record consumed by transfer_patterns.rs: as produced
by the multi-source set-Dijkstra (spec §4.8), its `predecessor` is
optional — `none` marks a source node. -/
structure TPCurrentBest where
  cost : Int
  id : GtfsId
  predecessor : Option GtfsId
deriving DecidableEq, Repr

/-- `smooth_results` of transfer_patterns.rs.  The source folds over
`results.windows(2)` (modelled as `results.zip results.tail`) starting
from `vec![results[0]]`; `results[0]` panics on an empty input, modelled
as `none`. `prev` is `nodes[0]`, the record of the ORIGINAL input list,
not the record already smoothed into the accumulator. -/
def smooth_results (results : List TPCurrentBest) : Option (List TPCurrentBest) :=
  match results with
  | [] => none
  | r0 :: _ =>
    some ((results.zip results.tail).foldl
      (fun smoothed nodes =>
        let prev := nodes.1
        let curr := nodes.2
        let wait_cost := prev.cost + (curr.id.time - prev.id.time)
        if curr.cost > wait_cost then
          smoothed ++ [⟨wait_cost, curr.id, some prev.id⟩]
        else
          smoothed ++ [curr])
      [r0])

/-- The step applied to each adjacent pair by `smooth_results`. -/
def smooth_step (prev curr : TPCurrentBest) : TPCurrentBest :=
  if curr.cost > prev.cost + (curr.id.time - prev.id.time) then
    ⟨prev.cost + (curr.id.time - prev.id.time), curr.id, some prev.id⟩
  else curr

theorem foldl_append_map {α β : Type} (f : α → β) :
    ∀ (l : List α) (acc : List β),
    l.foldl (fun acc x => acc ++ [f x]) acc = acc ++ l.map f := by
  intro l
  induction l with
  | nil => intro acc; simp
  | cons x xs ih => intro acc; simp [ih]

theorem smooth_results_eq_map (r0 : TPCurrentBest) (rest : List TPCurrentBest) :
    smooth_results (r0 :: rest) =
      some (r0 :: ((r0 :: rest).zip rest).map (fun p => smooth_step p.1 p.2)) := by
  rw [smooth_results]
  have h := foldl_append_map (fun p : TPCurrentBest × TPCurrentBest => smooth_step p.1 p.2)
    ((r0 :: rest).zip ((r0 :: rest).tail)) [r0]
  simp only [List.tail_cons] at h
  rw [show (fun (smoothed : List TPCurrentBest) (nodes : TPCurrentBest × TPCurrentBest) =>
      let prev := nodes.1
      let curr := nodes.2
      let wait_cost := prev.cost + (curr.id.time - prev.id.time)
      if curr.cost > wait_cost then smoothed ++ [⟨wait_cost, curr.id, some prev.id⟩]
      else smoothed ++ [curr]) =
    (fun acc (p : TPCurrentBest × TPCurrentBest) => acc ++ [smooth_step p.1 p.2]) from ?_]
  · rw [List.tail_cons, h]
    simp
  · funext acc p
    rw [smooth_step]
    by_cases hc : p.2.cost > p.1.cost + (p.2.id.time - p.1.id.time)
    · rw [if_pos hc, if_pos hc]
    · rw [if_neg hc, if_neg hc]

theorem zip_entry_at (la : List TPCurrentBest) :
    ∀ (lb : List TPCurrentBest) (i : Nat) (prev curr : TPCurrentBest),
    la[i]? = some prev → lb[i]? = some curr → (la.zip lb)[i]? = some (prev, curr) := by
  induction la with
  | nil =>
    intro lb i prev curr h₁ _
    simp at h₁
  | cons x xs ih =>
    intro lb i prev curr h₁ h₂
    cases lb with
    | nil => simp at h₂
    | cons y ys =>
      cases i with
      | zero =>
        simp only [List.getElem?_cons_zero, Option.some.injEq] at h₁ h₂
        simp [List.zip_cons_cons, h₁, h₂]
      | succ n =>
        simp only [List.getElem?_cons_succ] at h₁ h₂
        simpa [List.zip_cons_cons] using ih ys n prev curr h₁ h₂

/-- C6 (amended): for a non-empty list of arrival records, `smooth_results`
keeps the first record, and for each adjacent input pair (prev, curr) the
output record at curr's position has cost
`min(curr.cost, prev.cost + (curr.time − prev.time))` and predecessor set
to prev exactly when waiting is strictly cheaper — where `prev` is the
preceding record of the ORIGINAL input list (`results.windows(2)`), not
the already-smoothed record as the claim states. -/
theorem smooth_results_spec (l : List TPCurrentBest) (hl : l ≠ []) :
    ∃ out, smooth_results l = some out ∧
      out.length = l.length ∧ out[0]? = l[0]? ∧
      ∀ i prev curr, l[i]? = some prev → l[i + 1]? = some curr →
        ∃ o, out[i + 1]? = some o ∧ o.id = curr.id ∧
          o.cost = min curr.cost (prev.cost + (curr.id.time - prev.id.time)) ∧
          (prev.cost + (curr.id.time - prev.id.time) < curr.cost →
            o.predecessor = some prev.id) ∧
          (curr.cost ≤ prev.cost + (curr.id.time - prev.id.time) → o = curr) := by
  cases l with
  | nil => exact absurd rfl hl
  | cons r0 rest =>
    refine ⟨r0 :: ((r0 :: rest).zip rest).map (fun p => smooth_step p.1 p.2),
      smooth_results_eq_map r0 rest, ?_, by simp, ?_⟩
    · simp [List.length_zip, Nat.min_def]
    · intro i prev curr hp hc
      have hrest : rest[i]? = some curr := by
        simpa using hc
      have hzip : ((r0 :: rest).zip rest)[i]? = some (prev, curr) :=
        zip_entry_at (r0 :: rest) rest i prev curr hp hrest
      refine ⟨smooth_step prev curr, ?_, ?_⟩
      · simp [List.getElem?_map, hzip]
      · rw [smooth_step]
        split_ifs with hwait
        · exact ⟨rfl, by simp; omega, fun _ => rfl, fun hcon => by omega⟩
        · exact ⟨rfl, by simp; omega, fun hcon => by omega, fun _ => rfl⟩

/-- C6 witness: the amended statement applied to a concrete two-record list. -/
theorem smooth_results_spec_witness :
    ([(⟨0, ⟨"S", 0, .Arrival, none⟩, none⟩ : TPCurrentBest),
      ⟨100, ⟨"S", 10, .Arrival, none⟩, none⟩] ≠ []) ∧
    (∃ out, smooth_results [(⟨0, ⟨"S", 0, .Arrival, none⟩, none⟩ : TPCurrentBest),
        ⟨100, ⟨"S", 10, .Arrival, none⟩, none⟩] = some out ∧
      out.length = 2 ∧
      out[0]? = some ⟨0, ⟨"S", 0, .Arrival, none⟩, none⟩ ∧
      out[1]? = some ⟨10, ⟨"S", 10, .Arrival, none⟩, some ⟨"S", 0, .Arrival, none⟩⟩) :=
  ⟨by decide, by
    rcases smooth_results_spec [(⟨0, ⟨"S", 0, .Arrival, none⟩, none⟩ : TPCurrentBest),
        ⟨100, ⟨"S", 10, .Arrival, none⟩, none⟩] (by decide) with
      ⟨out, hout, hlen, hhead, hstep⟩
    rcases hstep 0 ⟨0, ⟨"S", 0, .Arrival, none⟩, none⟩ ⟨100, ⟨"S", 10, .Arrival, none⟩, none⟩
        (by decide) (by decide) with ⟨o, ho, hid, hcost, hpred, -⟩
    refine ⟨out, hout, by simpa using hlen, by simpa using hhead, ?_⟩
    rw [ho]
    have h1 : o.cost = 10 := by rw [hcost]; decide
    have h2 : o.predecessor = some ⟨"S", 0, .Arrival, none⟩ := hpred (by decide)
    have h3 : o.id = ⟨"S", 10, .Arrival, none⟩ := hid
    cases o
    simp_all⟩

/-- C6 counterexample: three arrivals at times 0, 10, 20 with costs
0, 100, 100.  The second smooths to cost 10, so a smoothed-prev chain
would give the third `min(100, 10 + 10) = 20`; the source uses the raw
previous record (cost 100) and leaves the third at cost 100. -/
theorem smooth_results_raw_prev_cex :
    smooth_results [(⟨0, ⟨"S", 0, .Arrival, none⟩, none⟩ : TPCurrentBest),
        ⟨100, ⟨"S", 10, .Arrival, none⟩, none⟩,
        ⟨100, ⟨"S", 20, .Arrival, none⟩, none⟩] =
      some [⟨0, ⟨"S", 0, .Arrival, none⟩, none⟩,
        ⟨10, ⟨"S", 10, .Arrival, none⟩, some ⟨"S", 0, .Arrival, none⟩⟩,
        ⟨100, ⟨"S", 20, .Arrival, none⟩, none⟩] ∧
    (100 : Int) ≠ min 100 (10 + ((20 : Int) - 10)) := by
  constructor
  · decide
  · decide

/-! # weighted_graph.rs -/

/-- `Node` of weighted_graph.rs.  Coordinates are `Rat` (see the header). -/
structure GNode (T : Type) where
  id : T
  x : Rat
  y : Rat
  contraction_order : Option Int
deriving DecidableEq, Repr

/-- `Edge` of weighted_graph.rs. -/
structure GEdge (T : Type) where
  id : T
  from_id : T
  to_id : T
  weight : Int
  arc_flag : Bool
deriving DecidableEq, Repr

/-- Association-list lookup: the read of a `HashMap`. -/
def lookupKV {T β : Type} [DecidableEq T] : List (T × β) → T → Option β
  | [], _ => none
  | kv :: rest, k => if kv.1 = k then some kv.2 else lookupKV rest k

/-- Association-list insert with overwrite: `HashMap::insert`. -/
def insertKV {T β : Type} [DecidableEq T] : List (T × β) → T → β → List (T × β)
  | [], k, v => [(k, v)]
  | kv :: rest, k, v => if kv.1 = k then (k, v) :: rest else kv :: insertKV rest k v

/-- `Graph` of weighted_graph.rs: a node map and an outgoing-edge map. -/
structure WGraph (T : Type) where
  nodes : List (T × GNode T)
  edges : List (T × List (GEdge T))
deriving DecidableEq, Repr

variable {T : Type} [DecidableEq T]

/-- `Graph::get_node`. -/
def WGraph.get_node (g : WGraph T) (id : T) : Option (GNode T) :=
  lookupKV g.nodes id

/-- `Graph::get_edges` (returns the empty slice when the key is absent). -/
def WGraph.get_edges (g : WGraph T) (node_id : T) : List (GEdge T) :=
  (lookupKV g.edges node_id).getD []

/-- `Graph::all_nodes` (the map's values, in the model's list order). -/
def WGraph.all_nodes (g : WGraph T) : List (GNode T) :=
  g.nodes.map (fun kv => kv.2)

/-- `Graph::add_node`. -/
def WGraph.add_node (g : WGraph T) (id : T) (x y : Rat) : WGraph T :=
  { g with nodes := insertKV g.nodes id ⟨id, x, y, none⟩ }

/-- `Graph::add_edge`: a no-op when either endpoint is missing, otherwise
appends the edge (with `arc_flag = false`) to the from-node's list. -/
def WGraph.add_edge (g : WGraph T) (id from_id to_id : T) (weight : Int) : WGraph T :=
  if (g.get_node from_id).isSome ∧ (g.get_node to_id).isSome then
    let es := g.get_edges from_id ++ [⟨id, from_id, to_id, weight, false⟩]
    { g with edges := insertKV g.edges from_id es }
  else g

/-- Update the first edge matching `to_id` in an edge list:
`edges.iter_mut().find(|edge| edge.to_id == *to_node_id)`. -/
def updateFirstEdge (f : GEdge T → GEdge T) (to_id : T) : List (GEdge T) → List (GEdge T)
  | [] => []
  | e :: rest => if e.to_id = to_id then f e :: rest else e :: updateFirstEdge f to_id rest

/-- `Graph::get_mut_edge(from, to).map(|edge| ...)`: mutate the first
matching outgoing edge, a no-op when there is none. -/
def WGraph.modify_edge (g : WGraph T) (from_id to_id : T) (f : GEdge T → GEdge T) : WGraph T :=
  match lookupKV g.edges from_id with
  | none => g
  | some es => { g with edges := insertKV g.edges from_id (updateFirstEdge f to_id es) }

/-- `Graph::get_mut_node(id).map(|n| n.contraction_order = Some v)`. -/
def WGraph.set_order (g : WGraph T) (id : T) (v : Int) : WGraph T :=
  { g with nodes := g.nodes.map (fun kv =>
      if kv.1 = id then (kv.1, { kv.2 with contraction_order := some v }) else kv) }

/-- Well-formedness the Rust `HashMap` provides for free: each stored
node's `id` field is its key (`add_node` inserts `Node { id: id.clone(), .. }`). -/
def NodesWF (g : WGraph T) : Prop :=
  ∀ kv ∈ g.nodes, (kv.2).id = kv.1

/-- Key uniqueness of the node map (a `HashMap` invariant). -/
def NodesNodup (g : WGraph T) : Prop :=
  (g.nodes.map (fun kv => kv.1)).Nodup

/-- All edge weights of the graph are non-negative (spec §3, §8). -/
def EdgesNonneg (g : WGraph T) : Prop :=
  ∀ kv ∈ g.edges, ∀ e ∈ kv.2, 0 ≤ e.weight

/-! # pathfinder.rs -/

/-- `CurrentBest` of pathfinder.rs (and the identical `Result` of
dijkstra.rs): cost, node id, predecessor. -/
structure CurrentBest (T : Type) where
  cost : Int
  id : T
  predecessor : T
deriving DecidableEq, Repr

/-- The settlement map `results : HashMap<T, CurrentBest<T>>`. -/
abbrev SPResults (T : Type) := List (T × CurrentBest T)

/-- `i64::max_value()`, used by the relax loop as the absent-cost default. -/
def I64MAX : Int := 9223372036854775807

/-- Pop the earliest minimum-cost entry of the modelled `BinaryHeap`
(which the source orders by `cost` only, inverted to a min-heap). -/
def popMin {T : Type} : List (CurrentBest T) → Option (CurrentBest T × List (CurrentBest T))
  | [] => none
  | c :: rest =>
    match popMin rest with
    | none => some (c, [])
    | some (m, rest') => if c.cost ≤ m.cost then some (c, rest) else some (m, c :: rest')

/-- One pass of the relax loop body over the iterated edges: for each
edge whose to-node exists, compare `current.cost + edge.weight` with the
recorded cost (or `i64::max_value()`), and on improvement push the new
record on the heap and insert it into the results. -/
def relax_step (g : WGraph T) (h : Option (GNode T) → Option (GNode T) → Int)
    (dest : Option T) (current : CurrentBest T)
    (hr : List (CurrentBest T) × SPResults T) (edge : GEdge T) :
    List (CurrentBest T) × SPResults T :=
  match g.get_node edge.to_id with
  | none => hr
  | some node =>
    let node_cost :=
      match lookupKV hr.2 node.id with
      | none => I64MAX
      | some r => r.cost
    if current.cost + edge.weight < node_cost then
      let cost := current.cost + edge.weight +
        h (some node) (dest.bind (fun tid => g.get_node tid))
      let hnode : CurrentBest T := ⟨cost, node.id, current.id⟩
      (hnode :: hr.1, insertKV hr.2 node.id hnode)
    else hr

def relax_edges (g : WGraph T) (h : Option (GNode T) → Option (GNode T) → Int)
    (dest : Option T) (current : CurrentBest T) (edges : List (GEdge T))
    (heap : List (CurrentBest T)) (results : SPResults T) :
    List (CurrentBest T) × SPResults T :=
  edges.foldl (relax_step g h dest current) (heap, results)

/-- Does the popped id match the destination (`if let Some(target) = destination`)? -/
def destMatch (dest : Option T) (id : T) : Bool :=
  match dest with
  | some t => id = t
  | none => false

/-- The search loop of `Pathfinder::shortest_path` (pathfinder.rs lines
62-92; a_star.rs and dijkstra.rs duplicate the same loop with their fixed
policies).  Fuel-recursive; when the heap empties it returns `(0, results)`. -/
def pf_loop (g : WGraph T) (h : Option (GNode T) → Option (GNode T) → Int)
    (eit : WGraph T → T → List (GEdge T))
    (term : CurrentBest T → SPResults T → Bool) (dest : Option T) :
    Nat → List (CurrentBest T) → SPResults T → Option (Int × SPResults T)
  | 0, _, _ => none
  | fuel + 1, heap, results =>
    match popMin heap with
    | none => some (0, results)
    | some (current, heap') =>
      if destMatch dest current.id then some (current.cost, results)
      else if term current results then some (current.cost, results)
      else
        let hr := relax_edges g h dest current (eit g current.id) heap' results
        pf_loop g h eit term dest fuel hr.1 hr.2

/-- The initial record and first insertion shared by pathfinder.rs and
a_star.rs: cost `h(source, target)`, predecessor the source itself. -/
def pf_start (g : WGraph T) (h : Option (GNode T) → Option (GNode T) → Int)
    (dest : Option T) (source : T) : CurrentBest T :=
  ⟨h (g.get_node source) (dest.bind (fun tid => g.get_node tid)), source, source⟩

/-- `Pathfinder::shortest_path` of pathfinder.rs. -/
def pathfinder_shortest_path (h : Option (GNode T) → Option (GNode T) → Int)
    (eit : WGraph T → T → List (GEdge T))
    (term : CurrentBest T → SPResults T → Bool)
    (g : WGraph T) (source : T) (dest : Option T) (fuel : Nat) :
    Option (Int × SPResults T) :=
  pf_loop g h eit term dest fuel [pf_start g h dest source]
    (insertKV [] source (pf_start g h dest source))

/-- The unfiltered edge iterator (`get_edges(node_id).iter()`). -/
def allEdges (g : WGraph T) (node_id : T) : List (GEdge T) :=
  g.get_edges node_id

/-- The arc-flag edge iterator (`.filter(|edge| edge.arc_flag)`). -/
def flaggedEdges (g : WGraph T) (node_id : T) : List (GEdge T) :=
  (g.get_edges node_id).filter (fun e => e.arc_flag)

/-- The zero heuristic. -/
def zeroH : Option (GNode T) → Option (GNode T) → Int := fun _ _ => 0

/-- The never-terminating terminator. -/
def noTerm : CurrentBest T → SPResults T → Bool := fun _ _ => false

/-- `a_star::shortest_path` of a_star.rs: the same loop as the
pathfinder with all edges and no early terminator, an arbitrary
heuristic, and the initial cost `h(source, target)`. -/
def a_star_shortest_path (g : WGraph T) (source : T) (dest : Option T)
    (h : Option (GNode T) → Option (GNode T) → Int) (fuel : Nat) :
    Option (Int × SPResults T) :=
  pf_loop g h allEdges noTerm dest fuel [pf_start g h dest source]
    (insertKV [] source (pf_start g h dest source))

/-- `dijkstra::shortest_path` of dijkstra.rs: no heuristic at all; the
initial record has cost 0 and predecessor `"".to_string()`, modelled by
an explicit `nullKey` (not a node of the graph in every use). -/
def dijkstra_shortest_path (nullKey : T) (g : WGraph T) (source : T)
    (dest : Option T) (fuel : Nat) : Option (Int × SPResults T) :=
  pf_loop g zeroH allEdges noTerm dest fuel [⟨0, source, nullKey⟩]
    (insertKV [] source ⟨0, source, nullKey⟩)

/-- `arc_flags::shortest_path`: the pathfinder with the zero heuristic,
the arc-flag edge filter, and no terminator. -/
def arc_flags_shortest_path (g : WGraph T) (source : T) (dest : Option T)
    (fuel : Nat) : Option (Int × SPResults T) :=
  pathfinder_shortest_path zeroH flaggedEdges noTerm g source dest fuel

/-- `contraction::local_shortest_path`: the pathfinder with the zero
heuristic, the arc-flag filter (live-edge mask), and the node-count /
cost-ceiling terminator. -/
def local_shortest_path (g : WGraph T) (source destination : T)
    (max_nodes : Nat) (max_cost : Int) (fuel : Nat) : Option (Int × SPResults T) :=
  pathfinder_shortest_path zeroH flaggedEdges
    (fun r rs => decide (rs.length ≥ max_nodes) || decide (r.cost > max_cost))
    g source (some destination) fuel

/-! lookup and insert lemmas for the map model -/

theorem lookup_insertKV {β : Type} (m : List (T × β)) (k : T) (v : β) (k' : T) :
    lookupKV (insertKV m k v) k' = if k' = k then some v else lookupKV m k' := by
  induction m with
  | nil =>
    by_cases h : k' = k
    · subst h; simp [insertKV, lookupKV]
    · have h2 : ¬(k = k') := fun hc => h hc.symm
      simp [insertKV, lookupKV, h, h2]
  | cons kv rest ih =>
    by_cases h : kv.1 = k
    · subst h
      by_cases h' : k' = kv.1
      · subst h'; simp [insertKV, lookupKV]
      · have h2 : ¬(kv.1 = k') := fun hc => h' hc.symm
        simp [insertKV, lookupKV, h', h2]
    · by_cases h' : kv.1 = k'
      · subst h'
        have h2 : ¬(kv.1 = k) := h
        simp [insertKV, lookupKV, h, h2]
      · simp [insertKV, lookupKV, h, h', ih]

/-! popMin lemmas -/

theorem popMin_none_iff {h : List (CurrentBest T)} : popMin h = none ↔ h = [] := by
  cases h with
  | nil => simp [popMin]
  | cons c rest =>
    simp only [popMin]
    cases hr : popMin rest with
    | none => simp
    | some p =>
      rcases p with ⟨m, rest'⟩
      by_cases hc : c.cost ≤ m.cost <;> simp [hc]

theorem popMin_perm {h : List (CurrentBest T)} {c : CurrentBest T}
    {h' : List (CurrentBest T)} (hp : popMin h = some (c, h')) : h.Perm (c :: h') := by
  induction h generalizing c h' with
  | nil => simp [popMin] at hp
  | cons a rest ih =>
    rw [popMin] at hp
    split at hp
    · rename_i heq
      have hnil : rest = [] := popMin_none_iff.mp heq
      subst hnil
      simp only [Option.some.injEq, Prod.mk.injEq] at hp
      obtain ⟨rfl, rfl⟩ := hp
      exact List.Perm.refl _
    · rename_i m rest' heq
      split_ifs at hp with hc
      · simp only [Option.some.injEq, Prod.mk.injEq] at hp
        obtain ⟨rfl, rfl⟩ := hp
        exact List.Perm.refl _
      · simp only [Option.some.injEq, Prod.mk.injEq] at hp
        obtain ⟨rfl, rfl⟩ := hp
        exact (List.Perm.cons a (ih heq)).trans (List.Perm.swap m a _)

theorem popMin_min {h : List (CurrentBest T)} {c : CurrentBest T}
    {h' : List (CurrentBest T)} (hp : popMin h = some (c, h')) :
    ∀ e ∈ h, c.cost ≤ e.cost := by
  induction h generalizing c h' with
  | nil => simp [popMin] at hp
  | cons a rest ih =>
    rw [popMin] at hp
    split at hp
    · rename_i heq
      have hnil : rest = [] := popMin_none_iff.mp heq
      subst hnil
      simp only [Option.some.injEq, Prod.mk.injEq] at hp
      obtain ⟨rfl, rfl⟩ := hp
      intro e he
      rcases List.mem_cons.mp he with rfl | hmem
      · exact le_refl _
      · simp at hmem
    · rename_i m rest' heq
      split_ifs at hp with hc
      · simp only [Option.some.injEq, Prod.mk.injEq] at hp
        obtain ⟨rfl, rfl⟩ := hp
        intro e he
        rcases List.mem_cons.mp he with rfl | hmem
        · exact le_refl _
        · exact le_trans hc (ih heq e hmem)
      · simp only [Option.some.injEq, Prod.mk.injEq] at hp
        obtain ⟨rfl, rfl⟩ := hp
        intro e he
        rcases List.mem_cons.mp he with rfl | hmem
        · omega
        · exact ih heq e hmem

/-! paths over the iterated edges -/

/-- A path from `s` along edges produced by the edge iterator, each of
whose to-nodes exists in the graph (the relax loop skips the others),
together with its accumulated weight. -/
inductive PathCost (g : WGraph T) (eit : WGraph T → T → List (GEdge T)) (s : T) :
    T → Int → Prop where
  | refl : PathCost g eit s s 0
  | step {u : T} {w : Int} (e : GEdge T) : PathCost g eit s u w → e ∈ eit g u →
      (g.get_node e.to_id).isSome → PathCost g eit s e.to_id (w + e.weight)

theorem PathCost.nonneg {g : WGraph T} {eit : WGraph T → T → List (GEdge T)}
    {s t : T} {w : Int} (hnn : ∀ u, ∀ e ∈ eit g u, 0 ≤ e.weight)
    (hp : PathCost g eit s t w) : 0 ≤ w := by
  induction hp with
  | refl => omega
  | step e _ hmem _ ih => have := hnn _ e hmem; omega

theorem PathCost.mono {g : WGraph T} {eit₁ eit₂ : WGraph T → T → List (GEdge T)}
    {s t : T} {w : Int} (hsub : ∀ u, ∀ e ∈ eit₁ g u, e ∈ eit₂ g u)
    (hp : PathCost g eit₁ s t w) : PathCost g eit₂ s t w := by
  induction hp with
  | refl => exact PathCost.refl
  | step e _ hmem hns ih => exact PathCost.step e ih (hsub _ e hmem) hns

theorem flaggedEdges_subset (g : WGraph T) :
    ∀ u, ∀ e ∈ flaggedEdges g u, e ∈ allEdges g u := by
  intro u e he
  exact (List.mem_filter.mp he).1

/-! facts about a single relax step (with the zero heuristic) -/

theorem lookupKV_mem {β : Type} {m : List (T × β)} {k : T} {v : β}
    (h : lookupKV m k = some v) : (k, v) ∈ m := by
  induction m with
  | nil => simp [lookupKV] at h
  | cons kv rest ih =>
    rw [lookupKV] at h
    split_ifs at h with hk
    · simp only [Option.some.injEq] at h
      subst hk; subst h
      simp
    · exact List.mem_cons_of_mem kv (ih h)

theorem get_node_id {g : WGraph T} {x : T} {n : GNode T} (hw : NodesWF g)
    (h : g.get_node x = some n) : n.id = x :=
  hw (x, n) (lookupKV_mem h)

theorem relax_step_none (g : WGraph T) (dest : Option T) (current : CurrentBest T)
    (hr : List (CurrentBest T) × SPResults T) (e : GEdge T)
    (hn : g.get_node e.to_id = none) :
    relax_step g zeroH dest current hr e = hr := by
  rw [relax_step.eq_def, hn]

theorem relax_step_skip (g : WGraph T) (dest : Option T) (current : CurrentBest T)
    (hr : List (CurrentBest T) × SPResults T) (e : GEdge T) {node : GNode T}
    {r : CurrentBest T} (hw : NodesWF g)
    (hn : g.get_node e.to_id = some node)
    (hl : lookupKV hr.2 e.to_id = some r)
    (hg : ¬(current.cost + e.weight < r.cost)) :
    relax_step g zeroH dest current hr e = hr := by
  have hid : node.id = e.to_id := get_node_id hw hn
  rw [relax_step.eq_def, hn]
  dsimp only
  rw [hid, hl]
  dsimp only
  rw [if_neg hg]

theorem relax_step_skip_top (g : WGraph T) (dest : Option T) (current : CurrentBest T)
    (hr : List (CurrentBest T) × SPResults T) (e : GEdge T) {node : GNode T}
    (hw : NodesWF g)
    (hn : g.get_node e.to_id = some node)
    (hl : lookupKV hr.2 e.to_id = none)
    (hg : ¬(current.cost + e.weight < I64MAX)) :
    relax_step g zeroH dest current hr e = hr := by
  have hid : node.id = e.to_id := get_node_id hw hn
  rw [relax_step.eq_def, hn]
  dsimp only
  rw [hid, hl]
  dsimp only
  rw [if_neg hg]

theorem relax_step_push (g : WGraph T) (dest : Option T) (current : CurrentBest T)
    (hr : List (CurrentBest T) × SPResults T) (e : GEdge T) {node : GNode T}
    (hw : NodesWF g)
    (hn : g.get_node e.to_id = some node)
    (hg1 : lookupKV hr.2 e.to_id = none → current.cost + e.weight < I64MAX)
    (hg2 : ∀ r, lookupKV hr.2 e.to_id = some r → current.cost + e.weight < r.cost) :
    relax_step g zeroH dest current hr e =
      (⟨current.cost + e.weight, e.to_id, current.id⟩ :: hr.1,
       insertKV hr.2 e.to_id ⟨current.cost + e.weight, e.to_id, current.id⟩) := by
  have hid : node.id = e.to_id := get_node_id hw hn
  rw [relax_step.eq_def, hn]
  dsimp only
  rw [hid]
  cases hl : lookupKV hr.2 e.to_id with
  | none =>
    dsimp only
    rw [if_pos (hg1 hl)]
    simp [zeroH]
  | some r =>
    dsimp only
    rw [if_pos (hg2 r hl)]
    simp [zeroH]

/-! facts about the whole relax fold -/

theorem relax_fold_main (g : WGraph T) (dest : Option T) (current : CurrentBest T)
    (hw : NodesWF g) :
    ∀ (edges : List (GEdge T)), (∀ e ∈ edges, 0 ≤ e.weight) →
    ∀ (st : List (CurrentBest T) × SPResults T),
    (∀ u cb0, lookupKV st.2 u = some cb0 →
      ∃ cb, lookupKV (List.foldl (relax_step g zeroH dest current) st edges).2 u = some cb ∧
        cb.cost ≤ cb0.cost) ∧
    (∀ cb ∈ st.1, cb ∈ (List.foldl (relax_step g zeroH dest current) st edges).1) ∧
    (∀ u cbu, lookupKV st.2 u = some cbu → cbu.cost ≤ current.cost →
      lookupKV (List.foldl (relax_step g zeroH dest current) st edges).2 u = some cbu) ∧
    (∀ u cb, lookupKV (List.foldl (relax_step g zeroH dest current) st edges).2 u = some cb →
      lookupKV st.2 u = some cb ∨
        (cb ∈ (List.foldl (relax_step g zeroH dest current) st edges).1 ∧ cb.id = u ∧
          current.cost ≤ cb.cost)) ∧
    (∀ cb ∈ (List.foldl (relax_step g zeroH dest current) st edges).1,
      cb ∈ st.1 ∨ (current.cost ≤ cb.cost ∧
        ∃ cbr, lookupKV (List.foldl (relax_step g zeroH dest current) st edges).2 cb.id =
          some cbr ∧ cbr.cost ≤ cb.cost)) := by
  intro edges
  induction edges with
  | nil =>
    intro _ st
    refine ⟨fun u cb0 hl => ⟨cb0, hl, le_refl _⟩, fun cb hm => hm,
      fun u cbu hl _ => hl, fun u cb hl => Or.inl hl, fun cb hm => Or.inl hm⟩
  | cons e rest ih =>
    intro hnn st
    have hnn' : ∀ e' ∈ rest, 0 ≤ e'.weight := fun e' he' => hnn e' (by simp [he'])
    have hew : 0 ≤ e.weight := hnn e (by simp)
    rw [List.foldl_cons]
    rcases hn : g.get_node e.to_id with _ | node
    · rw [relax_step_none g dest current st e hn]
      exact ih hnn' st
    · rcases hl : lookupKV st.2 e.to_id with _ | r
      · by_cases hg : current.cost + e.weight < I64MAX
        · rw [relax_step_push g dest current st e hw hn (fun _ => hg)
            (fun r hr' => (by rw [hr'] at hl; cases hl))]
          rcases ih hnn' (⟨current.cost + e.weight, e.to_id, current.id⟩ :: st.1,
              insertKV st.2 e.to_id ⟨current.cost + e.weight, e.to_id, current.id⟩) with
            ⟨m1, m2, m3, m4, m5⟩
          refine ⟨?_, ?_, ?_, ?_, ?_⟩
          · intro u cb0 hl0
            have hne : u ≠ e.to_id := fun hc => by rw [hc, hl] at hl0; cases hl0
            have : lookupKV (insertKV st.2 e.to_id
                ⟨current.cost + e.weight, e.to_id, current.id⟩) u = some cb0 := by
              rw [lookup_insertKV, if_neg hne]; exact hl0
            exact m1 u cb0 this
          · intro cb hm
            exact m2 cb (List.mem_cons_of_mem _ hm)
          · intro u cbu hl0 hle
            have hne : u ≠ e.to_id := fun hc => by rw [hc, hl] at hl0; cases hl0
            have : lookupKV (insertKV st.2 e.to_id
                ⟨current.cost + e.weight, e.to_id, current.id⟩) u = some cbu := by
              rw [lookup_insertKV, if_neg hne]; exact hl0
            exact m3 u cbu this hle
          · intro u cb hlf
            rcases m4 u cb hlf with hmid | hnew
            · rw [lookup_insertKV] at hmid
              split_ifs at hmid with hu
              · simp only [Option.some.injEq] at hmid
                subst hmid
                subst hu
                refine Or.inr ⟨m2 _ (by simp), rfl, by dsimp only; omega⟩
              · exact Or.inl hmid
            · exact Or.inr hnew
          · intro cb hm
            rcases m5 cb hm with hmid | hnew
            · rcases List.mem_cons.mp hmid with rfl | hold
              · refine Or.inr ⟨by dsimp only; omega, ?_⟩
                have : lookupKV (insertKV st.2 e.to_id
                    ⟨current.cost + e.weight, e.to_id, current.id⟩) e.to_id =
                    some ⟨current.cost + e.weight, e.to_id, current.id⟩ := by
                  rw [lookup_insertKV, if_pos rfl]
                rcases m1 e.to_id _ this with ⟨cbr, hcbr, hle⟩
                exact ⟨cbr, hcbr, hle⟩
              · exact Or.inl hold
            · exact Or.inr hnew
        · rw [relax_step_skip_top g dest current st e hw hn hl hg]
          exact ih hnn' st
      · by_cases hg : current.cost + e.weight < r.cost
        · rw [relax_step_push g dest current st e hw hn
            (fun hc => (by rw [hc] at hl; cases hl))
            (fun r' hr' => (by rw [hr'] at hl; cases hl; exact hg))]
          rcases ih hnn' (⟨current.cost + e.weight, e.to_id, current.id⟩ :: st.1,
              insertKV st.2 e.to_id ⟨current.cost + e.weight, e.to_id, current.id⟩) with
            ⟨m1, m2, m3, m4, m5⟩
          refine ⟨?_, ?_, ?_, ?_, ?_⟩
          · intro u cb0 hl0
            by_cases hu : u = e.to_id
            · have hcb0 : r = cb0 := by
                rw [hu, hl] at hl0
                exact Option.some.inj hl0
              have hins : lookupKV (insertKV st.2 e.to_id
                  ⟨current.cost + e.weight, e.to_id, current.id⟩) u =
                  some ⟨current.cost + e.weight, e.to_id, current.id⟩ := by
                rw [lookup_insertKV, if_pos hu]
              rcases m1 u _ hins with ⟨cb, hcb, hle⟩
              refine ⟨cb, hcb, ?_⟩
              rw [← hcb0]
              dsimp only at hle
              omega
            · have : lookupKV (insertKV st.2 e.to_id
                  ⟨current.cost + e.weight, e.to_id, current.id⟩) u = some cb0 := by
                rw [lookup_insertKV, if_neg hu]; exact hl0
              exact m1 u cb0 this
          · intro cb hm
            exact m2 cb (List.mem_cons_of_mem _ hm)
          · intro u cbu hl0 hle
            have hne : u ≠ e.to_id := by
              intro hc
              subst hc
              rw [hl0] at hl
              cases hl
              omega
            have : lookupKV (insertKV st.2 e.to_id
                ⟨current.cost + e.weight, e.to_id, current.id⟩) u = some cbu := by
              rw [lookup_insertKV, if_neg hne]; exact hl0
            exact m3 u cbu this hle
          · intro u cb hlf
            rcases m4 u cb hlf with hmid | hnew
            · rw [lookup_insertKV] at hmid
              split_ifs at hmid with hu
              · simp only [Option.some.injEq] at hmid
                subst hmid
                subst hu
                refine Or.inr ⟨m2 _ (by simp), rfl, by dsimp only; omega⟩
              · exact Or.inl hmid
            · exact Or.inr hnew
          · intro cb hm
            rcases m5 cb hm with hmid | hnew
            · rcases List.mem_cons.mp hmid with rfl | hold
              · refine Or.inr ⟨by dsimp only; omega, ?_⟩
                have : lookupKV (insertKV st.2 e.to_id
                    ⟨current.cost + e.weight, e.to_id, current.id⟩) e.to_id =
                    some ⟨current.cost + e.weight, e.to_id, current.id⟩ := by
                  rw [lookup_insertKV, if_pos rfl]
                rcases m1 e.to_id _ this with ⟨cbr, hcbr, hle⟩
                exact ⟨cbr, hcbr, hle⟩
              · exact Or.inl hold
            · exact Or.inr hnew
        · rw [relax_step_skip g dest current st e hw hn hl hg]
          exact ih hnn' st

theorem relax_fold_wf (g : WGraph T) (dest : Option T) (current : CurrentBest T)
    (hw : NodesWF g) (hcb : current.cost < I64MAX) :
    ∀ (edges : List (GEdge T)) (st : List (CurrentBest T) × SPResults T),
    (∀ u cb, lookupKV st.2 u = some cb → cb.id = u) →
    (∀ u cb, lookupKV st.2 u = some cb → cb.cost < I64MAX) →
    (∀ cb ∈ st.1, cb.cost < I64MAX) →
    (∀ u cb, lookupKV (List.foldl (relax_step g zeroH dest current) st edges).2 u = some cb →
      cb.id = u ∧ cb.cost < I64MAX) ∧
    (∀ cb ∈ (List.foldl (relax_step g zeroH dest current) st edges).1, cb.cost < I64MAX) := by
  intro edges
  induction edges with
  | nil =>
    intro st h1 h2 h3
    exact ⟨fun u cb hl => ⟨h1 u cb hl, h2 u cb hl⟩, h3⟩
  | cons e rest ih =>
    intro st h1 h2 h3
    rw [List.foldl_cons]
    rcases hn : g.get_node e.to_id with _ | node
    · rw [relax_step_none g dest current st e hn]
      exact ih st h1 h2 h3
    · rcases hl : lookupKV st.2 e.to_id with _ | r
      · by_cases hg : current.cost + e.weight < I64MAX
        · rw [relax_step_push g dest current st e hw hn (fun _ => hg)
            (fun r hr' => (by rw [hr'] at hl; cases hl))]
          apply ih
          · intro u cb hlu
            rw [lookup_insertKV] at hlu
            split_ifs at hlu with hu
            · simp only [Option.some.injEq] at hlu
              subst hlu; exact hu.symm
            · exact h1 u cb hlu
          · intro u cb hlu
            rw [lookup_insertKV] at hlu
            split_ifs at hlu with hu
            · simp only [Option.some.injEq] at hlu
              subst hlu; exact hg
            · exact h2 u cb hlu
          · intro cb hm
            rcases List.mem_cons.mp hm with rfl | hold
            · exact hg
            · exact h3 cb hold
        · rw [relax_step_skip_top g dest current st e hw hn hl hg]
          exact ih st h1 h2 h3
      · by_cases hg : current.cost + e.weight < r.cost
        · rw [relax_step_push g dest current st e hw hn
            (fun hc => (by rw [hc] at hl; cases hl))
            (fun r' hr' => (by rw [hr'] at hl; cases hl; exact hg))]
          have hlt : current.cost + e.weight < I64MAX :=
            lt_trans hg (h2 _ r hl)
          apply ih
          · intro u cb hlu
            rw [lookup_insertKV] at hlu
            split_ifs at hlu with hu
            · simp only [Option.some.injEq] at hlu
              subst hlu; exact hu.symm
            · exact h1 u cb hlu
          · intro u cb hlu
            rw [lookup_insertKV] at hlu
            split_ifs at hlu with hu
            · simp only [Option.some.injEq] at hlu
              subst hlu; exact hlt
            · exact h2 u cb hlu
          · intro cb hm
            rcases List.mem_cons.mp hm with rfl | hold
            · exact hlt
            · exact h3 cb hold
        · rw [relax_step_skip g dest current st e hw hn hl hg]
          exact ih st h1 h2 h3

theorem relax_fold_sound (g : WGraph T) (dest : Option T) (current : CurrentBest T)
    (eit : WGraph T → T → List (GEdge T)) (s : T)
    (hw : NodesWF g) (hcur : PathCost g eit s current.id current.cost) :
    ∀ (edges : List (GEdge T)), (∀ e ∈ edges, e ∈ eit g current.id) →
    ∀ (st : List (CurrentBest T) × SPResults T),
    (∀ cb ∈ st.1, PathCost g eit s cb.id cb.cost) →
    ∀ cb ∈ (List.foldl (relax_step g zeroH dest current) st edges).1,
      PathCost g eit s cb.id cb.cost := by
  intro edges
  induction edges with
  | nil => intro _ st hst; exact hst
  | cons e rest ih =>
    intro hsub st hst
    have hsub' : ∀ e' ∈ rest, e' ∈ eit g current.id := fun e' he' => hsub e' (by simp [he'])
    rw [List.foldl_cons]
    rcases hn : g.get_node e.to_id with _ | node
    · rw [relax_step_none g dest current st e hn]
      exact ih hsub' st hst
    · rcases hl : lookupKV st.2 e.to_id with _ | r
      · by_cases hg : current.cost + e.weight < I64MAX
        · rw [relax_step_push g dest current st e hw hn (fun _ => hg)
            (fun r hr' => (by rw [hr'] at hl; cases hl))]
          apply ih hsub'
          intro cb hm
          rcases List.mem_cons.mp hm with rfl | hold
          · exact PathCost.step e hcur (hsub e (by simp)) (by rw [hn]; rfl)
          · exact hst cb hold
        · rw [relax_step_skip_top g dest current st e hw hn hl hg]
          exact ih hsub' st hst
      · by_cases hg : current.cost + e.weight < r.cost
        · rw [relax_step_push g dest current st e hw hn
            (fun hc => (by rw [hc] at hl; cases hl))
            (fun r' hr' => (by rw [hr'] at hl; cases hl; exact hg))]
          apply ih hsub'
          intro cb hm
          rcases List.mem_cons.mp hm with rfl | hold
          · exact PathCost.step e hcur (hsub e (by simp)) (by rw [hn]; rfl)
          · exact hst cb hold
        · rw [relax_step_skip g dest current st e hw hn hl hg]
          exact ih hsub' st hst

theorem relax_fold_establish (g : WGraph T) (dest : Option T) (current : CurrentBest T)
    (hw : NodesWF g) :
    ∀ (edges : List (GEdge T)), (∀ e ∈ edges, 0 ≤ e.weight) →
    ∀ (st : List (CurrentBest T) × SPResults T),
    ∀ e ∈ edges, (g.get_node e.to_id).isSome →
      (∃ cbv, lookupKV (List.foldl (relax_step g zeroH dest current) st edges).2 e.to_id =
        some cbv ∧ cbv.cost ≤ current.cost + e.weight) ∨
      I64MAX ≤ current.cost + e.weight := by
  intro edges
  induction edges with
  | nil => intro _ st e he; simp at he
  | cons e0 rest ih =>
    intro hnn st e he hsome
    have hnn' : ∀ e' ∈ rest, 0 ≤ e'.weight := fun e' he' => hnn e' (by simp [he'])
    rw [List.foldl_cons]
    rcases List.mem_cons.mp he with rfl | hrest
    · -- the edge itself is processed first, later steps only lower costs
      rcases hn : g.get_node e.to_id with _ | node
      · rw [hn] at hsome; cases hsome
      · rcases hl : lookupKV st.2 e.to_id with _ | r
        · by_cases hg : current.cost + e.weight < I64MAX
          · rw [relax_step_push g dest current st e hw hn (fun _ => hg)
              (fun r hr' => (by rw [hr'] at hl; cases hl))]
            have hins : lookupKV (insertKV st.2 e.to_id
                ⟨current.cost + e.weight, e.to_id, current.id⟩) e.to_id =
                some ⟨current.cost + e.weight, e.to_id, current.id⟩ := by
              rw [lookup_insertKV, if_pos rfl]
            rcases (relax_fold_main g dest current hw rest hnn'
                (⟨current.cost + e.weight, e.to_id, current.id⟩ :: st.1,
                 insertKV st.2 e.to_id
                   ⟨current.cost + e.weight, e.to_id, current.id⟩)).1 _ _ hins with
              ⟨cbv, hcbv, hle⟩
            exact Or.inl ⟨cbv, hcbv, by dsimp only at hle; omega⟩
          · exact Or.inr (by omega)
        · by_cases hg : current.cost + e.weight < r.cost
          · rw [relax_step_push g dest current st e hw hn
              (fun hc => (by rw [hc] at hl; cases hl))
              (fun r' hr' => (by rw [hr'] at hl; cases hl; exact hg))]
            have hins : lookupKV (insertKV st.2 e.to_id
                ⟨current.cost + e.weight, e.to_id, current.id⟩) e.to_id =
                some ⟨current.cost + e.weight, e.to_id, current.id⟩ := by
              rw [lookup_insertKV, if_pos rfl]
            rcases (relax_fold_main g dest current hw rest hnn'
                (⟨current.cost + e.weight, e.to_id, current.id⟩ :: st.1,
                 insertKV st.2 e.to_id
                   ⟨current.cost + e.weight, e.to_id, current.id⟩)).1 _ _ hins with
              ⟨cbv, hcbv, hle⟩
            exact Or.inl ⟨cbv, hcbv, by dsimp only at hle; omega⟩
          · rw [relax_step_skip g dest current st e hw hn hl hg]
            rcases (relax_fold_main g dest current hw rest hnn' st).1 _ _ hl with
              ⟨cbv, hcbv, hle⟩
            exact Or.inl ⟨cbv, hcbv, by omega⟩
    · exact ih hnn' (relax_step g zeroH dest current st e0) e hrest hsome

theorem relax_fold_noop (g : WGraph T) (dest : Option T) (current : CurrentBest T)
    (hw : NodesWF g) :
    ∀ (edges : List (GEdge T)) (st : List (CurrentBest T) × SPResults T),
    (∀ e ∈ edges,
      g.get_node e.to_id = none ∨
      (∃ r, lookupKV st.2 e.to_id = some r ∧ r.cost ≤ current.cost + e.weight) ∨
      (lookupKV st.2 e.to_id = none ∧ I64MAX ≤ current.cost + e.weight)) →
    List.foldl (relax_step g zeroH dest current) st edges = st := by
  intro edges
  induction edges with
  | nil => intro st _; rfl
  | cons e rest ih =>
    intro st hskip
    rw [List.foldl_cons]
    have hstep : relax_step g zeroH dest current st e = st := by
      rcases hskip e (by simp) with hn | ⟨r, hl, hle⟩ | ⟨hl, htop⟩
      · exact relax_step_none g dest current st e hn
      · rcases hn : g.get_node e.to_id with _ | node
        · exact relax_step_none g dest current st e hn
        · exact relax_step_skip g dest current st e hw hn hl (by omega)
      · rcases hn : g.get_node e.to_id with _ | node
        · exact relax_step_none g dest current st e hn
        · exact relax_step_skip_top g dest current st e hw hn hl (by omega)
    rw [hstep]
    exact ih st (fun e' he' => hskip e' (by simp [he']))

/-! the invariant of the lazy-deletion Dijkstra loop (zero heuristic, no
terminator), with a ghost set `D` of settled node ids -/

structure DijInv (g : WGraph T) (eit : WGraph T → T → List (GEdge T)) (s : T)
    (H : List (CurrentBest T)) (R : SPResults T) (D : T → Prop) : Prop where
  settled_rel : ∀ u, D u → ∃ cbu, lookupKV R u = some cbu ∧
    ∀ e ∈ eit g u, (g.get_node e.to_id).isSome →
      ((∃ cbv, lookupKV R e.to_id = some cbv ∧ cbv.cost ≤ cbu.cost + e.weight) ∨
        I64MAX ≤ cbu.cost + e.weight)
  entry_present : ∀ u cb, lookupKV R u = some cb → D u ∨ cb ∈ H
  settled_le_heap : ∀ u, D u → ∀ cbu, lookupKV R u = some cbu → ∀ e ∈ H, cbu.cost ≤ e.cost
  heap_ge_res : ∀ cb ∈ H, ∃ cbr, lookupKV R cb.id = some cbr ∧ cbr.cost ≤ cb.cost
  res_id : ∀ u cb, lookupKV R u = some cb → cb.id = u
  res_bound : ∀ u cb, lookupKV R u = some cb → cb.cost < I64MAX
  heap_bound : ∀ cb ∈ H, cb.cost < I64MAX
  src_zero : ∃ cbs, lookupKV R s = some cbs ∧ cbs.cost ≤ 0

/-- Along any path from the source, either some vertex's record already
bounds the prefix cost, or a heap entry does, or the path is longer than
any representable cost. -/
theorem dij_front {g : WGraph T} {eit : WGraph T → T → List (GEdge T)} {s : T}
    {H : List (CurrentBest T)} {R : SPResults T} {D : T → Prop}
    (inv : DijInv g eit s H R D)
    (hnn : ∀ u, ∀ e ∈ eit g u, 0 ≤ e.weight) :
    ∀ z w, PathCost g eit s z w →
      (∃ cbz, lookupKV R z = some cbz ∧ cbz.cost ≤ w) ∨
      (∃ cb ∈ H, cb.cost ≤ w) ∨ I64MAX ≤ w := by
  intro z w hp
  induction hp with
  | refl =>
    rcases inv.src_zero with ⟨cbs, hls, hcs⟩
    exact Or.inl ⟨cbs, hls, hcs⟩
  | @step u w' e hpath hmem hns ih =>
    have hew : 0 ≤ e.weight := hnn u e hmem
    rcases ih with ⟨cbu, hlu, hcu⟩ | ⟨cb, hm, hc⟩ | htop
    · rcases inv.entry_present u cbu hlu with hDu | hmemH
      · rcases inv.settled_rel u hDu with ⟨cbu', hlu', hrel⟩
        rw [hlu] at hlu'
        cases hlu'
        rcases hrel e hmem hns with ⟨cbv, hlv, hbv⟩ | htop'
        · exact Or.inl ⟨cbv, hlv, by omega⟩
        · exact Or.inr (Or.inr (by omega))
      · exact Or.inr (Or.inl ⟨cbu, hmemH, by omega⟩)
    · exact Or.inr (Or.inl ⟨cb, hm, by omega⟩)
    · exact Or.inr (Or.inr (by omega))

/-- When an unsettled node is popped, its popped cost is at most the cost
of every path from the source to it. -/
theorem dij_popped_le {g : WGraph T} {eit : WGraph T → T → List (GEdge T)} {s : T}
    {H : List (CurrentBest T)} {R : SPResults T} {D : T → Prop}
    (inv : DijInv g eit s H R D)
    (hnn : ∀ u, ∀ e ∈ eit g u, 0 ≤ e.weight)
    {current : CurrentBest T} {H' : List (CurrentBest T)}
    (hpop : popMin H = some (current, H')) (hD : ¬D current.id) :
    ∀ w, PathCost g eit s current.id w → current.cost ≤ w := by
  intro w hp
  have hmemH : current ∈ H := (popMin_perm hpop).mem_iff.mpr (by simp)
  rcases dij_front inv hnn current.id w hp with ⟨cbz, hlz, hcz⟩ | ⟨cb, hm, hc⟩ | htop
  · rcases inv.entry_present current.id cbz hlz with hDu | hmemz
    · exact absurd hDu hD
    · have := popMin_min hpop cbz hmemz
      omega
  · have := popMin_min hpop cb hm
    omega
  · have := inv.heap_bound current hmemH
    omega

/-- The record of an unsettled popped node equals the popped cost. -/
theorem dij_popped_record {g : WGraph T} {eit : WGraph T → T → List (GEdge T)} {s : T}
    {H : List (CurrentBest T)} {R : SPResults T} {D : T → Prop}
    (inv : DijInv g eit s H R D)
    {current : CurrentBest T} {H' : List (CurrentBest T)}
    (hpop : popMin H = some (current, H')) (hD : ¬D current.id) :
    ∃ cbr, lookupKV R current.id = some cbr ∧ cbr.cost = current.cost := by
  have hmemH : current ∈ H := (popMin_perm hpop).mem_iff.mpr (by simp)
  rcases inv.heap_ge_res current hmemH with ⟨cbr, hlr, hcr⟩
  refine ⟨cbr, hlr, ?_⟩
  rcases inv.entry_present current.id cbr hlr with hDu | hmemr
  · exact absurd hDu hD
  · have := popMin_min hpop cbr hmemr
    omega

/-- Expanding the popped entry preserves the invariant, settling its id
(the stale case, where the id was already settled, relaxes nothing). -/
theorem dij_inv_step {g : WGraph T} {eit : WGraph T → T → List (GEdge T)} {s : T}
    {H : List (CurrentBest T)} {R : SPResults T} {D : T → Prop}
    (inv : DijInv g eit s H R D) (hw : NodesWF g)
    (hnn : ∀ u, ∀ e ∈ eit g u, 0 ≤ e.weight) (dest : Option T)
    {current : CurrentBest T} {H' : List (CurrentBest T)}
    (hpop : popMin H = some (current, H')) :
    DijInv g eit s
      (List.foldl (relax_step g zeroH dest current) (H', R) (eit g current.id)).1
      (List.foldl (relax_step g zeroH dest current) (H', R) (eit g current.id)).2
      (fun u => D u ∨ u = current.id) := by
  have hmemH : current ∈ H := (popMin_perm hpop).mem_iff.mpr (by simp)
  have hHsub : ∀ cb ∈ H', cb ∈ H := fun cb hm =>
    (popMin_perm hpop).mem_iff.mpr (List.mem_cons_of_mem _ hm)
  have hcurb : current.cost < I64MAX := inv.heap_bound current hmemH
  have hnnE : ∀ e ∈ eit g current.id, 0 ≤ e.weight := fun e he => hnn _ e he
  by_cases hD : D current.id
  · -- stale pop: every relax attempt is skipped, so the fold is a no-op
    have hnoop : List.foldl (relax_step g zeroH dest current) (H', R)
        (eit g current.id) = (H', R) := by
      apply relax_fold_noop g dest current hw
      intro e he
      rcases hn : g.get_node e.to_id with _ | node
      · exact Or.inl rfl
      · rcases inv.settled_rel current.id hD with ⟨cbu, hlu, hrel⟩
        have hcbu : cbu.cost ≤ current.cost :=
          inv.settled_le_heap current.id hD cbu hlu current hmemH
        rcases hrel e he (by rw [hn]; rfl) with ⟨cbv, hlv, hbv⟩ | htop
        · exact Or.inr (Or.inl ⟨cbv, hlv, by omega⟩)
        · rcases hl : lookupKV R e.to_id with _ | r
          · exact Or.inr (Or.inr ⟨rfl, by omega⟩)
          · have := inv.res_bound e.to_id r hl
            exact Or.inr (Or.inl ⟨r, rfl, by omega⟩)
    rw [hnoop]
    refine ⟨?_, ?_, ?_, fun cb hm => inv.heap_ge_res cb (hHsub cb hm),
      inv.res_id, inv.res_bound,
      fun cb hm => inv.heap_bound cb (hHsub cb hm), inv.src_zero⟩
    · intro u hu
      rcases hu with hu | rfl
      · exact inv.settled_rel u hu
      · exact inv.settled_rel current.id hD
    · intro u cb hl
      rcases inv.entry_present u cb hl with hDu | hmem
      · exact Or.inl (Or.inl hDu)
      · rcases List.mem_cons.mp ((popMin_perm hpop).mem_iff.mp hmem) with rfl | hm'
        · exact Or.inl (Or.inl ((inv.res_id u cb hl) ▸ hD))
        · exact Or.inr hm'
    · intro u hu cbu hlu e he
      have hDu : D u := by
        rcases hu with h | rfl
        · exact h
        · exact hD
      exact inv.settled_le_heap u hDu cbu hlu e (hHsub e he)
  · -- fresh pop: the record of the popped id equals the popped cost
    rcases dij_popped_record inv hpop hD with ⟨cbr, hlr, hcr⟩
    obtain ⟨m1, m2, m3, m4, m5⟩ :=
      relax_fold_main g dest current hw (eit g current.id) hnnE (H', R)
    obtain ⟨wf1, wf2⟩ :=
      relax_fold_wf g dest current hw hcurb (eit g current.id) (H', R)
        inv.res_id inv.res_bound (fun cb hm => inv.heap_bound cb (hHsub cb hm))
    have est := relax_fold_establish g dest current hw (eit g current.id) hnnE (H', R)
    refine ⟨?_, ?_, ?_, ?_, fun u cb hl => (wf1 u cb hl).1,
      fun u cb hl => (wf1 u cb hl).2, wf2, ?_⟩
    · intro u hu
      rcases hu with hDu | rfl
      · rcases inv.settled_rel u hDu with ⟨cbu, hlu, hrel⟩
        have hle : cbu.cost ≤ current.cost :=
          inv.settled_le_heap u hDu cbu hlu current hmemH
        refine ⟨cbu, m3 u cbu hlu hle, ?_⟩
        intro e he hsome
        rcases hrel e he hsome with ⟨cbv, hlv, hbv⟩ | htop
        · rcases m1 e.to_id cbv hlv with ⟨cbv', hlv', hle'⟩
          exact Or.inl ⟨cbv', hlv', by omega⟩
        · exact Or.inr htop
      · refine ⟨cbr, m3 current.id cbr hlr (by omega), ?_⟩
        intro e he hsome
        rcases est e he hsome with ⟨cbv, hlv, hbv⟩ | htop
        · exact Or.inl ⟨cbv, hlv, by omega⟩
        · exact Or.inr (by omega)
    · intro u cb hl
      rcases m4 u cb hl with hold | ⟨hmem, hid, _⟩
      · rcases inv.entry_present u cb hold with hDu | hmemH0
        · exact Or.inl (Or.inl hDu)
        · rcases List.mem_cons.mp ((popMin_perm hpop).mem_iff.mp hmemH0) with rfl | hm'
          · exact Or.inl (Or.inr (inv.res_id u _ hold).symm)
          · exact Or.inr (m2 cb hm')
      · exact Or.inr hmem
    · intro u hu cbu hlu e he
      have hcost : cbu.cost ≤ current.cost := by
        rcases hu with hDu | rfl
        · rcases inv.settled_rel u hDu with ⟨cbu₀, hlu₀, _⟩
          have hle₀ : cbu₀.cost ≤ current.cost :=
            inv.settled_le_heap u hDu cbu₀ hlu₀ current hmemH
          have hfro := m3 u cbu₀ hlu₀ hle₀
          rw [hlu] at hfro
          obtain rfl := Option.some.inj hfro
          omega
        · have hfro := m3 current.id cbr hlr (by omega)
          rw [hlu] at hfro
          obtain rfl := Option.some.inj hfro
          omega
      rcases m5 e he with hH' | ⟨hge, _⟩
      · have := popMin_min hpop e (hHsub e hH')
        omega
      · omega
    · intro cb hm
      rcases m5 cb hm with hH' | ⟨_, cbr', hlr', hler'⟩
      · rcases inv.heap_ge_res cb (hHsub cb hH') with ⟨cbr₀, hl₀, hle₀⟩
        rcases m1 cb.id cbr₀ hl₀ with ⟨cbr₁, hl₁, hle₁⟩
        exact ⟨cbr₁, hl₁, by omega⟩
      · exact ⟨cbr', hlr', hler'⟩
    · rcases inv.src_zero with ⟨cbs, hls, hcs⟩
      rcases m1 s cbs hls with ⟨cbs', hls', hles'⟩
      exact ⟨cbs', hls', by omega⟩

/-- The invariant at the initial state of the Dijkstra policy (cost 0,
nothing settled). -/
theorem dij_inv_start (g : WGraph T) (eit : WGraph T → T → List (GEdge T)) (s p : T) :
    DijInv g eit s [⟨0, s, p⟩] (insertKV [] s ⟨0, s, p⟩) (fun _ => False) := by
  have hlook : ∀ u, lookupKV (insertKV ([] : SPResults T) s ⟨0, s, p⟩) u =
      if u = s then some ⟨0, s, p⟩ else none := by
    intro u
    rw [lookup_insertKV]
    by_cases hu : u = s <;> simp [hu, lookupKV]
  refine ⟨fun u h => h.elim, ?_, fun u h => h.elim, ?_, ?_, ?_, ?_, ?_⟩
  · intro u cb hl
    rw [hlook] at hl
    split_ifs at hl with hu
    obtain rfl := Option.some.inj hl
    exact Or.inr (by simp)
  · intro cb hm
    obtain rfl := List.mem_singleton.mp hm
    exact ⟨⟨0, s, p⟩, by rw [hlook]; simp, le_refl _⟩
  · intro u cb hl
    rw [hlook] at hl
    split_ifs at hl with hu
    obtain rfl := Option.some.inj hl
    exact hu.symm
  · intro u cb hl
    rw [hlook] at hl
    split_ifs at hl with hu
    obtain rfl := Option.some.inj hl
    exact (by decide : (0 : Int) < I64MAX)
  · intro cb hm
    obtain rfl := List.mem_singleton.mp hm
    exact (by decide : (0 : Int) < I64MAX)
  · exact ⟨⟨0, s, p⟩, by rw [hlook]; simp, le_refl _⟩

/-- Runs of the loop from an invariant state with the target unsettled
return a cost that is at most every path cost to the target. -/
theorem pf_loop_le_path {g : WGraph T} {eit : WGraph T → T → List (GEdge T)} {s t : T}
    (hw : NodesWF g) (hnn : ∀ u, ∀ e ∈ eit g u, 0 ≤ e.weight) :
    ∀ (fuel : Nat) (H : List (CurrentBest T)) (R : SPResults T) (D : T → Prop),
      DijInv g eit s H R D → ¬D t →
      ∀ c R', pf_loop g zeroH eit noTerm (some t) fuel H R = some (c, R') →
      ∀ w, PathCost g eit s t w → c ≤ w := by
  intro fuel
  induction fuel with
  | zero =>
    intro H R D _ _ c R' hrun
    simp [pf_loop] at hrun
  | succ n ih =>
    intro H R D inv hDt c R' hrun w hp
    rw [pf_loop] at hrun
    rcases hpop : popMin H with _ | ⟨current, H'⟩
    · simp only [hpop, Option.some.injEq, Prod.mk.injEq] at hrun
      obtain ⟨rfl, rfl⟩ := hrun
      exact PathCost.nonneg hnn hp
    · simp only [hpop] at hrun
      by_cases hdm : destMatch (some t) current.id = true
      · rw [if_pos hdm] at hrun
        simp only [Option.some.injEq, Prod.mk.injEq] at hrun
        obtain ⟨rfl, rfl⟩ := hrun
        have hct : current.id = t := by simpa [destMatch] using hdm
        subst hct
        exact dij_popped_le inv hnn hpop hDt w hp
      · rw [if_neg hdm, if_neg (by simp [noTerm])] at hrun
        simp only [relax_edges] at hrun
        have hDt' : ¬(D t ∨ t = current.id) := by
          rintro (h | h)
          · exact hDt h
          · exact hdm (by simp [destMatch, h])
        exact ih _ _ _ (dij_inv_step inv hw hnn (some t) hpop) hDt' c R' hrun w hp

/-- Runs of the loop whose heap entries all lie on paths from the source
return either the empty-heap answer 0 or a genuine path cost to the
target. -/
theorem pf_loop_reach {g : WGraph T} {eit : WGraph T → T → List (GEdge T)} {s t : T}
    (hw : NodesWF g) :
    ∀ (fuel : Nat) (H : List (CurrentBest T)) (R : SPResults T),
      (∀ cb ∈ H, PathCost g eit s cb.id cb.cost) →
      ∀ c R', pf_loop g zeroH eit noTerm (some t) fuel H R = some (c, R') →
      c = 0 ∨ PathCost g eit s t c := by
  intro fuel
  induction fuel with
  | zero =>
    intro H R _ c R' hrun
    simp [pf_loop] at hrun
  | succ n ih =>
    intro H R hheap c R' hrun
    rw [pf_loop] at hrun
    rcases hpop : popMin H with _ | ⟨current, H'⟩
    · simp only [hpop, Option.some.injEq, Prod.mk.injEq] at hrun
      obtain ⟨rfl, rfl⟩ := hrun
      exact Or.inl rfl
    · simp only [hpop] at hrun
      have hmemH : current ∈ H := (popMin_perm hpop).mem_iff.mpr (by simp)
      by_cases hdm : destMatch (some t) current.id = true
      · rw [if_pos hdm] at hrun
        simp only [Option.some.injEq, Prod.mk.injEq] at hrun
        obtain ⟨rfl, rfl⟩ := hrun
        have hct : current.id = t := by simpa [destMatch] using hdm
        exact Or.inr (hct ▸ hheap current hmemH)
      · rw [if_neg hdm, if_neg (by simp [noTerm])] at hrun
        simp only [relax_edges] at hrun
        apply ih _ _ ?_ c R' hrun
        apply relax_fold_sound g (some t) current eit s hw (hheap current hmemH)
          (eit g current.id) (fun e he => he)
        intro cb hm
        exact hheap cb ((popMin_perm hpop).mem_iff.mpr (List.mem_cons_of_mem _ hm))

/-- Global edge non-negativity gives per-node non-negativity over the
unfiltered iterator. -/
theorem edgesNonneg_allEdges {g : WGraph T} (h : EdgesNonneg g) :
    ∀ u, ∀ e ∈ allEdges g u, 0 ≤ e.weight := by
  intro u e he
  simp only [allEdges, WGraph.get_edges] at he
  rcases hl : lookupKV g.edges u with _ | l
  · rw [hl] at he
    simp at he
  · rw [hl] at he
    simp only [Option.getD_some] at he
    exact h (u, l) (lookupKV_mem hl) e he

/-- In a graph whose edge map yields no edges, every path stays at the
source. -/
theorem pathcost_no_edges {g : WGraph T} (hne : ∀ u, allEdges g u = []) {s t : T}
    {w : Int} (hp : PathCost g allEdges s t w) : t = s := by
  induction hp with
  | refl => rfl
  | step e hpath hmem hns =>
    rw [hne] at hmem
    cases hmem

/-! # claim C9 -/

/-- C9: whenever the priority queue empties without the destination
having been popped — in particular whenever the destination is
unreachable from the source over the iterated edges — `shortest_path`
returns 0 as the cost component of its result (dijkstra.rs line 46,
pathfinder.rs line 92). -/
theorem dijkstra_unreachable_returns_zero (g : WGraph T) (nullKey s t : T)
    (fuel : Nat) (hw : NodesWF g)
    (hunreach : ∀ w, ¬PathCost g allEdges s t w)
    (c : Int) (R' : SPResults T)
    (hrun : dijkstra_shortest_path nullKey g s (some t) fuel = some (c, R')) :
    c = 0 := by
  rw [dijkstra_shortest_path] at hrun
  have hheap : ∀ cb ∈ ([⟨0, s, nullKey⟩] : List (CurrentBest T)),
      PathCost g allEdges s cb.id cb.cost := by
    intro cb hm
    obtain rfl := List.mem_singleton.mp hm
    exact PathCost.refl
  rcases pf_loop_reach hw fuel [⟨0, s, nullKey⟩] (insertKV [] s ⟨0, s, nullKey⟩)
      hheap c R' hrun with h0 | hpath
  · exact h0
  · exact absurd hpath (hunreach c)

/-- A two-node graph with no edges: the destination 2 is unreachable
from the source 1. -/
def gC9 : WGraph Nat :=
  ((⟨[], []⟩ : WGraph Nat).add_node 1 0 0).add_node 2 1 1

theorem dijkstra_unreachable_returns_zero_witness :
    NodesWF gC9 ∧ (0 : Int) = 0 :=
  ⟨by unfold NodesWF; decide,
   dijkstra_unreachable_returns_zero gC9 0 1 2 3 (by unfold NodesWF; decide)
     (fun w hp => absurd
       (pathcost_no_edges (show ∀ u, allEdges gC9 u = [] from fun u => rfl) hp)
       (by decide))
     0 [(1, ⟨0, 1, 0⟩)] rfl⟩

/-! # arc_flags.rs -/

/-- `Rect` of arc_flags.rs. -/
structure Rect where
  x_max : Rat
  x_min : Rat
  y_max : Rat
  y_min : Rat
deriving DecidableEq, Repr

/-- `Rect::contains` (closed rectangle membership). -/
def Rect.contains (r : Rect) (node : GNode T) : Bool :=
  decide (node.x ≤ r.x_max) && decide (node.x ≥ r.x_min) &&
    decide (node.y ≤ r.y_max) && decide (node.y ≥ r.y_min)

/-- `internal_nodes` of arc_flags.rs: ids of the nodes inside the region. -/
def internal_nodes (g : WGraph T) (rect : Rect) : List T :=
  ((g.all_nodes).filter (fun n => rect.contains n)).map (fun n => n.id)

/-- `boundary_node` of arc_flags.rs: an internal node with an edge to an
existing node outside the region. -/
def boundary_node (g : WGraph T) (rect : Rect) (node_id : T) : Bool :=
  match g.get_node node_id with
  | some node =>
    rect.contains node &&
      (g.get_edges node.id).any (fun e =>
        ((g.get_node e.to_id).map (fun n => ! rect.contains n)).getD false)
  | none => false

/-- `inbound_paths` of arc_flags.rs: for every boundary node, a full
Dijkstra sweep (no destination), collecting all settled records.  Fuel
is threaded through the sweeps; `none` models a sweep that does not
finish. -/
def inbound_paths (nullKey : T) (fuel : Nat) (g : WGraph T) (node_ids : List T)
    (region : Rect) : Option (List (CurrentBest T)) :=
  (node_ids.filter (fun nid => boundary_node g region nid)).foldlM
    (fun acc nid =>
      (dijkstra_shortest_path nullKey g nid none fuel).map
        (fun pr => acc ++ pr.2.map (fun kv => kv.2)))
    []

/-- `assign_arc_flags` of arc_flags.rs: flag the first edge from each
settled record's id back to its predecessor, then flag the first edge of
every internal ordered pair. -/
def assign_arc_flags (nullKey : T) (fuel : Nat) (g : WGraph T) (region : Rect) :
    Option (WGraph T) :=
  let internal := internal_nodes g region
  (inbound_paths nullKey fuel g internal region).map (fun results =>
    let g1 := results.foldl (fun gr r =>
      gr.modify_edge r.id r.predecessor (fun e => { e with arc_flag := true })) g
    internal.foldl (fun gr from_id =>
      internal.foldl (fun gr2 to_id =>
        gr2.modify_edge from_id to_id (fun e => { e with arc_flag := true })) gr) g1)

/-! # claim C2 -/

/-- C2 (amended): on a graph whose arc flags were assigned by
`assign_arc_flags`, with well-formed nodes and non-negative weights, the
cost returned by the arc-flag search is either the empty-heap answer 0
(the flag filter can make the target unreachable) or at least the
Dijkstra cost; the original inequality `dijkstra ≤ arc_flags` in full
generality and the in-region equality are both refuted by
`arc_flags_cost_cex`. -/
theorem arc_flags_cost_lower_bounded (g0 g : WGraph T) (region : Rect)
    (nullKey0 nullKey s t : T) (fuelP fuelA fuelD : Nat)
    (hassign : assign_arc_flags nullKey0 fuelP g0 region = some g)
    (hw : NodesWF g) (hnn : EdgesNonneg g)
    (cf cd : Int)
    (hf : (arc_flags_shortest_path g s (some t) fuelA).map Prod.fst = some cf)
    (hd : (dijkstra_shortest_path nullKey g s (some t) fuelD).map Prod.fst = some cd) :
    cf = 0 ∨ cd ≤ cf := by
  obtain ⟨prf, hfr, hcf⟩ := Option.map_eq_some'.mp hf
  obtain ⟨prd, hdr, hcd⟩ := Option.map_eq_some'.mp hd
  rw [arc_flags_shortest_path, pathfinder_shortest_path] at hfr
  rw [dijkstra_shortest_path] at hdr
  have hheapf : ∀ cb ∈ ([pf_start g zeroH (some t) s] : List (CurrentBest T)),
      PathCost g flaggedEdges s cb.id cb.cost := by
    intro cb hm
    obtain rfl := List.mem_singleton.mp hm
    exact PathCost.refl
  rcases pf_loop_reach hw fuelA _ _ hheapf prf.1 prf.2 hfr with h0 | hpathf
  · left
    rw [← hcf]
    exact h0
  · right
    have hple := pf_loop_le_path hw (edgesNonneg_allEdges hnn) fuelD _ _ _
      (dij_inv_start g allEdges s nullKey) (fun h => h) prd.1 prd.2 hdr
      prf.1 (PathCost.mono (flaggedEdges_subset g) hpathf)
    rw [← hcf, ← hcd]
    exact hple

/-- A graph whose only path to the target is not flagged because the
region contains no node at all. -/
def gC2a : WGraph Nat :=
  (((⟨[], []⟩ : WGraph Nat).add_node 1 0 0).add_node 2 10 10).add_edge 101 1 2 5

/-- A region containing neither node of `gC2a`. -/
def rectC2a : Rect := ⟨2, 1, 2, 1⟩

/-- A graph with parallel edges 1 → 2 of weights 5 and 1 (in that
order); the preprocessing only flags the first one. -/
def gC2b : WGraph Nat :=
  ((((⟨[], []⟩ : WGraph Nat).add_node 1 0 0).add_node 2 1 1).add_edge 101 1 2 5).add_edge
    102 1 2 1

/-- A region containing both nodes of `gC2b`. -/
def rectC2b : Rect := ⟨5, -5, 5, -5⟩

/-- The original C2 fails twice on graphs produced by `assign_arc_flags`:
on `gC2a` the arc-flag cost 0 is below the Dijkstra cost 5, and on
`gC2b` the target 2 lies inside the region yet the costs 5 and 1
differ. -/
theorem arc_flags_cost_cex :
    ((assign_arc_flags 0 10 gC2a rectC2a).bind
        (fun gg => (arc_flags_shortest_path gg 1 (some 2) 10).map Prod.fst) = some 0) ∧
    ((assign_arc_flags 0 10 gC2a rectC2a).bind
        (fun gg => (dijkstra_shortest_path 0 gg 1 (some 2) 10).map Prod.fst) = some 5) ∧
    ¬((5 : Int) ≤ 0) ∧
    ((assign_arc_flags 0 10 gC2b rectC2b).bind
        (fun gg => (arc_flags_shortest_path gg 1 (some 2) 10).map Prod.fst) = some 5) ∧
    ((assign_arc_flags 0 10 gC2b rectC2b).bind
        (fun gg => (dijkstra_shortest_path 0 gg 1 (some 2) 10).map Prod.fst) = some 1) ∧
    ((assign_arc_flags 0 10 gC2b rectC2b).bind
        (fun gg => (gg.get_node 2).map (fun n => rectC2b.contains n)) = some true) ∧
    (5 : Int) ≠ 1 :=
  ⟨rfl, rfl, by decide, rfl, rfl, rfl, by decide⟩

/-- The graph `gC2b` after arc-flag preprocessing. -/
def gC2bAssigned : WGraph Nat := (assign_arc_flags 0 10 gC2b rectC2b).getD gC2b

theorem arc_flags_cost_lower_bounded_witness :
    NodesWF gC2bAssigned ∧ EdgesNonneg gC2bAssigned ∧ ((5 : Int) = 0 ∨ (1 : Int) ≤ 5) :=
  ⟨by unfold NodesWF; decide, by unfold EdgesNonneg; decide,
   arc_flags_cost_lower_bounded gC2b gC2bAssigned rectC2b 0 0 1 2 10 10 10 (by decide)
     (by unfold NodesWF; decide) (by unfold EdgesNonneg; decide) 5 1 rfl rfl⟩

/-! # claim C1 -/

/-- A two-node graph: edge 101 from 1 to 2 of weight 1. -/
def gC1 : WGraph Nat :=
  (((⟨[], []⟩ : WGraph Nat).add_node 1 0 0).add_node 2 1 0).add_edge 101 1 2 1

/-- An admissible heuristic for target 2 on `gC1`: value 1 at node 1
(the true distance), 0 elsewhere. -/
def hC1 : Option (GNode Nat) → Option (GNode Nat) → Int :=
  fun n _ =>
    match n with
    | some node => if node.id = 1 then 1 else 0
    | none => 0

/-- C1 fails in the code: the relax loop stores
`current.cost + edge.weight + h(to)` and the start record already
carries `h(source)`, with nothing ever subtracted, so the heuristic is
accumulated along the path.  On `gC1` with the admissible heuristic
`hC1` (exact at node 1: the true remaining distance is 1, witnessed
below; zero at the target), `a_star` returns 2 while Dijkstra returns
the true distance 1. -/
theorem a_star_dijkstra_divergence :
    ((a_star_shortest_path gC1 1 (some 2) hC1 10).map Prod.fst = some 2) ∧
    ((dijkstra_shortest_path 0 gC1 1 (some 2) 10).map Prod.fst = some 1) ∧
    (hC1 (gC1.get_node 1) (gC1.get_node 2) = 1 ∧ PathCost gC1 allEdges 1 2 1) ∧
    (hC1 (gC1.get_node 2) (gC1.get_node 2) = 0) ∧
    (2 : Int) ≠ 1 := by
  refine ⟨by decide, by decide, ⟨by decide, ?_⟩, by decide, by decide⟩
  simpa using PathCost.step (⟨101, 1, 2, 1, false⟩ : GEdge Nat)
    PathCost.refl (by decide) (by decide)

/-! # contraction.rs: arc-flag toggling -/

/-- The edit both `get_mut_edge(..).map(|e| e.arc_flag = flag)` callbacks
perform. -/
def setFlag (b : Bool) : GEdge T → GEdge T := fun e => { e with arc_flag := b }

/-- `change_arc_flag` of contraction.rs: set the flag of the first
`node_id → adjacent_id` edge, then of the first `adjacent_id → node_id`
edge. -/
def change_arc_flag (g : WGraph T) (adjacent_id node_id : T) (flag : Bool) : WGraph T :=
  (g.modify_edge node_id adjacent_id (setFlag flag)).modify_edge adjacent_id node_id
    (setFlag flag)

theorem insertKV_self {β : Type} (m : List (T × β)) (k : T) (v : β)
    (h : lookupKV m k = some v) : insertKV m k v = m := by
  induction m with
  | nil => simp [lookupKV] at h
  | cons kv rest ih =>
    rw [lookupKV] at h
    by_cases hk : kv.1 = k
    · rw [if_pos hk] at h
      obtain rfl := Option.some.inj h
      rw [insertKV, if_pos hk, ← hk]
    · rw [if_neg hk] at h
      rw [insertKV, if_neg hk, ih h]

theorem insertKV_collapse {β : Type} (m : List (T × β)) (k : T) (a b : β) :
    insertKV (insertKV m k a) k b = insertKV m k b := by
  induction m with
  | nil => simp [insertKV]
  | cons kv rest ih =>
    by_cases hk : kv.1 = k
    · rw [insertKV, if_pos hk, insertKV, if_pos rfl, insertKV, if_pos hk]
    · rw [insertKV, if_neg hk, insertKV, if_neg hk, insertKV, if_neg hk, ih]

theorem insertKV_comm {β : Type} (m : List (T × β)) (k k' : T) (a b : β)
    (hne : k ≠ k') (hk : (lookupKV m k).isSome) (hk' : (lookupKV m k').isSome) :
    insertKV (insertKV m k a) k' b = insertKV (insertKV m k' b) k a := by
  induction m with
  | nil => simp [lookupKV] at hk
  | cons kv rest ih =>
    by_cases h1 : kv.1 = k
    · have h2 : ¬kv.1 = k' := by rw [h1]; exact hne
      rw [insertKV, if_pos h1, insertKV, if_neg (by simpa using hne),
        insertKV, if_neg h2, insertKV, if_pos h1]
    · by_cases h2 : kv.1 = k'
      · rw [insertKV, if_neg h1, insertKV, if_pos h2, insertKV, if_pos h2,
          insertKV, if_neg (by simpa using hne.symm)]
      · rw [lookupKV, if_neg h1] at hk
        rw [lookupKV, if_neg h2] at hk'
        rw [insertKV, if_neg h1, insertKV, if_neg h2, insertKV, if_neg h2,
          insertKV, if_neg h1, ih hk hk']

theorem upd_overwrite (b b' : Bool) (t : T) (L : List (GEdge T)) :
    updateFirstEdge (setFlag b) t (updateFirstEdge (setFlag b') t L) =
      updateFirstEdge (setFlag b) t L := by
  induction L with
  | nil => rfl
  | cons e rest ih =>
    by_cases ht : e.to_id = t
    · simp [updateFirstEdge, setFlag, ht]
    · simp [updateFirstEdge, setFlag, ht, ih]

theorem upd_comm (b b' : Bool) (t t' : T) (hne : t ≠ t') (L : List (GEdge T)) :
    updateFirstEdge (setFlag b) t (updateFirstEdge (setFlag b') t' L) =
      updateFirstEdge (setFlag b') t' (updateFirstEdge (setFlag b) t L) := by
  induction L with
  | nil => rfl
  | cons e rest ih =>
    by_cases ht : e.to_id = t
    · have ht' : ¬e.to_id = t' := by rw [ht]; exact hne
      simp [updateFirstEdge, setFlag, ht, ht', hne]
    · by_cases ht2 : e.to_id = t'
      · simp [updateFirstEdge, setFlag, ht, ht2, Ne.symm hne]
      · simp [updateFirstEdge, setFlag, ht, ht2, ih]

theorem upd_noop (b : Bool) (t : T) (L : List (GEdge T))
    (h : ∀ e, L.find? (fun e => e.to_id = t) = some e → e.arc_flag = b) :
    updateFirstEdge (setFlag b) t L = L := by
  induction L with
  | nil => rfl
  | cons e rest ih =>
    by_cases ht : e.to_id = t
    · have hb := h e (by simp [List.find?, ht])
      rw [updateFirstEdge, if_pos ht]
      cases e
      subst hb
      rfl
    · rw [updateFirstEdge, if_neg ht, ih]
      intro e' hf
      apply h
      simpa [List.find?, ht] using hf

theorem modify_none (g : WGraph T) (f t : T) (fn : GEdge T → GEdge T)
    (hl : lookupKV g.edges f = none) : g.modify_edge f t fn = g := by
  rw [WGraph.modify_edge, hl]

theorem modify_some_edges (g : WGraph T) (f t : T) (fn : GEdge T → GEdge T)
    (es : List (GEdge T)) (hl : lookupKV g.edges f = some es) :
    g.modify_edge f t fn =
      { g with edges := insertKV g.edges f (updateFirstEdge fn t es) } := by
  rw [WGraph.modify_edge, hl]

theorem modify_noop (g : WGraph T) (f t : T) (fn : GEdge T → GEdge T)
    (h : updateFirstEdge fn t (g.get_edges f) = g.get_edges f) :
    g.modify_edge f t fn = g := by
  rcases hl : lookupKV g.edges f with _ | es
  · exact modify_none g f t fn hl
  · have hes : g.get_edges f = es := by rw [WGraph.get_edges, hl]; rfl
    rw [hes] at h
    rw [modify_some_edges g f t fn es hl, h, insertKV_self g.edges f es hl]

theorem modify_lookup_self (g : WGraph T) (f t : T) (fn : GEdge T → GEdge T)
    (es : List (GEdge T)) (hl : lookupKV g.edges f = some es) :
    lookupKV (g.modify_edge f t fn).edges f = some (updateFirstEdge fn t es) := by
  rw [modify_some_edges g f t fn es hl]
  dsimp only
  rw [lookup_insertKV, if_pos rfl]

theorem modify_lookup_other (g : WGraph T) (f t : T) (fn : GEdge T → GEdge T)
    (k : T) (hk : k ≠ f) :
    lookupKV (g.modify_edge f t fn).edges k = lookupKV g.edges k := by
  rcases hl : lookupKV g.edges f with _ | es
  · rw [modify_none g f t fn hl]
  · rw [modify_some_edges g f t fn es hl]
    dsimp only
    rw [lookup_insertKV, if_neg hk]

theorem modify_collapse (g : WGraph T) (f t : T) (b b' : Bool) :
    (g.modify_edge f t (setFlag b')).modify_edge f t (setFlag b) =
      g.modify_edge f t (setFlag b) := by
  rcases hl : lookupKV g.edges f with _ | es
  · rw [modify_none g f t _ hl]
  · rw [modify_some_edges _ f t _ _ (modify_lookup_self g f t (setFlag b') es hl),
      modify_some_edges g f t (setFlag b') es hl,
      modify_some_edges g f t (setFlag b) es hl]
    dsimp only
    rw [insertKV_collapse, upd_overwrite]

theorem modify_comm_samefrom (g : WGraph T) (f t t' : T) (b b' : Bool)
    (hne : t ≠ t') :
    (g.modify_edge f t' (setFlag b')).modify_edge f t (setFlag b) =
      (g.modify_edge f t (setFlag b)).modify_edge f t' (setFlag b') := by
  rcases hl : lookupKV g.edges f with _ | es
  · rw [modify_none g f t' _ hl, modify_none g f t _ hl, modify_none g f t' _ hl]
  · rw [modify_some_edges _ f t _ _ (modify_lookup_self g f t' (setFlag b') es hl),
      modify_some_edges _ f t' _ _ (modify_lookup_self g f t (setFlag b) es hl),
      modify_some_edges g f t' (setFlag b') es hl,
      modify_some_edges g f t (setFlag b) es hl]
    dsimp only
    rw [insertKV_collapse, insertKV_collapse, upd_comm b b' t t' hne]

theorem modify_comm_diff (g : WGraph T) (f t f' t' : T)
    (fn fn' : GEdge T → GEdge T) (h : f ≠ f') :
    (g.modify_edge f t fn).modify_edge f' t' fn' =
      (g.modify_edge f' t' fn').modify_edge f t fn := by
  rcases hlf : lookupKV g.edges f with _ | es
  · rcases hlf' : lookupKV g.edges f' with _ | es'
    · rw [modify_none g f t fn hlf, modify_none g f' t' fn' hlf',
        modify_none g f t fn hlf]
    · have e2 : lookupKV (g.modify_edge f' t' fn').edges f = none := by
        rw [modify_lookup_other g f' t' fn' f h]; exact hlf
      rw [modify_none g f t fn hlf, modify_none (g.modify_edge f' t' fn') f t fn e2]
  · rcases hlf' : lookupKV g.edges f' with _ | es'
    · have e1 : lookupKV (g.modify_edge f t fn).edges f' = none := by
        rw [modify_lookup_other g f t fn f' (fun hc => h hc.symm)]; exact hlf'
      rw [modify_none (g.modify_edge f t fn) f' t' fn' e1, modify_none g f' t' fn' hlf']
    · have e1 : lookupKV (g.modify_edge f t fn).edges f' = some es' := by
        rw [modify_lookup_other g f t fn f' (fun hc => h hc.symm)]; exact hlf'
      have e2 : lookupKV (g.modify_edge f' t' fn').edges f = some es := by
        rw [modify_lookup_other g f' t' fn' f h]; exact hlf
      rw [modify_some_edges (g.modify_edge f t fn) f' t' fn' es' e1,
        modify_some_edges (g.modify_edge f' t' fn') f t fn es e2,
        modify_some_edges g f t fn es hlf,
        modify_some_edges g f' t' fn' es' hlf']
      dsimp only
      congr 1
      exact insertKV_comm g.edges f f' (updateFirstEdge fn t es)
        (updateFirstEdge fn' t' es') h (by rw [hlf]; rfl) (by rw [hlf']; rfl)

theorem chg_overwrite (g : WGraph T) (a v : T) (hav : a ≠ v) (b b' : Bool) :
    change_arc_flag (change_arc_flag g a v b') a v b = change_arc_flag g a v b := by
  rw [change_arc_flag, change_arc_flag, change_arc_flag]
  rw [modify_comm_diff (g.modify_edge v a (setFlag b')) a v v a (setFlag b')
    (setFlag b) hav]
  rw [modify_collapse g v a b b']
  rw [modify_collapse (g.modify_edge v a (setFlag b)) a v b b']

theorem chg_noop (g : WGraph T) (a v : T) (b : Bool)
    (h1 : ∀ e, (g.get_edges v).find? (fun e => e.to_id = a) = some e → e.arc_flag = b)
    (h2 : ∀ e, (g.get_edges a).find? (fun e => e.to_id = v) = some e → e.arc_flag = b) :
    change_arc_flag g a v b = g := by
  rw [change_arc_flag, modify_noop g v a (setFlag b) (upd_noop b a (g.get_edges v) h1),
    modify_noop g a v (setFlag b) (upd_noop b v (g.get_edges a) h2)]

theorem chg_comm (g : WGraph T) (a a' v : T) (b b' : Bool)
    (haa : a ≠ a') (hav : a ≠ v) (ha'v : a' ≠ v) :
    change_arc_flag (change_arc_flag g a v b) a' v b' =
      change_arc_flag (change_arc_flag g a' v b') a v b := by
  rw [change_arc_flag, change_arc_flag, change_arc_flag, change_arc_flag]
  rw [modify_comm_diff (g.modify_edge v a (setFlag b)) a v v a' (setFlag b)
    (setFlag b') hav]
  rw [modify_comm_samefrom g v a' a b' b (Ne.symm haa)]
  rw [modify_comm_diff ((g.modify_edge v a' (setFlag b')).modify_edge v a (setFlag b))
    a v a' v (setFlag b) (setFlag b') haa]
  rw [modify_comm_diff (g.modify_edge v a' (setFlag b')) v a a' v (setFlag b)
    (setFlag b') (Ne.symm ha'v)]

theorem chg_foldl_comm (v a : T) (b b' : Bool) :
    ∀ (l : List T), a ∉ l → v ∉ l → a ≠ v →
    ∀ g : WGraph T,
    List.foldl (fun gr x => change_arc_flag gr x v b') (change_arc_flag g a v b) l =
      change_arc_flag (List.foldl (fun gr x => change_arc_flag gr x v b') g l) a v b := by
  intro l
  induction l with
  | nil => intro _ _ _ g; rfl
  | cons x xs ih =>
    intro hal hvl hav g
    have hax : a ≠ x := fun hc => hal (by rw [hc]; simp)
    have hxv : x ≠ v := fun hc => hvl (by rw [← hc]; simp)
    have hal' : a ∉ xs := fun hc => hal (List.mem_cons_of_mem _ hc)
    have hvl' : v ∉ xs := fun hc => hvl (List.mem_cons_of_mem _ hc)
    simp only [List.foldl_cons]
    rw [chg_comm g a x v b b' hax hav hxv]
    rw [ih hal' hvl' hav (change_arc_flag g x v b')]

/-- Removing every adjacent connection (both directions, first matching
edge) and then un-removing them restores the graph exactly, provided the
first matching edges all carried flag `true` to begin with. -/
theorem remove_unremove_restore (v : T) :
    ∀ (l : List T) (g : WGraph T), l.Nodup → v ∉ l →
    (∀ x ∈ l, ∀ e, (WGraph.get_edges g v).find? (fun e => e.to_id = x) = some e →
      e.arc_flag = true) →
    (∀ x ∈ l, ∀ e, (WGraph.get_edges g x).find? (fun e => e.to_id = v) = some e →
      e.arc_flag = true) →
    List.foldl (fun gr x => change_arc_flag gr x v true)
      (List.foldl (fun gr x => change_arc_flag gr x v false) g l) l = g := by
  intro l
  induction l with
  | nil => intro g _ _ _ _; rfl
  | cons a xs ih =>
    intro g hnd hv h1 h2
    have hax : a ∉ xs := (List.nodup_cons.mp hnd).1
    have hnd' : xs.Nodup := (List.nodup_cons.mp hnd).2
    have hvx : v ∉ xs := fun hc => hv (List.mem_cons_of_mem _ hc)
    have hav : a ≠ v := fun hc => hv (by rw [← hc]; simp)
    simp only [List.foldl_cons]
    rw [← chg_foldl_comm v a true false xs hax hvx hav (change_arc_flag g a v false)]
    rw [chg_overwrite g a v hav true false]
    rw [chg_noop g a v true (h1 a (by simp)) (h2 a (by simp))]
    exact ih g hnd' hvx (fun x hx => h1 x (List.mem_cons_of_mem _ hx))
      (fun x hx => h2 x (List.mem_cons_of_mem _ hx))

/-! # contraction.rs: node contraction -/

/-- `find_adjacent_nodes`: to-ids of the flagged outgoing edges. -/
def find_adjacent_nodes (g : WGraph T) (node_id : T) : List T :=
  ((g.get_edges node_id).filter (fun e => e.arc_flag)).map (fun e => e.to_id)

/-- `edge_weight`: weight of the first matching edge, defaulting to 0. -/
def edge_weight (g : WGraph T) (from_node to_node : T) : Int :=
  (((g.get_edges from_node).find? (fun e => e.to_id = to_node)).map
    (fun e => e.weight)).getD 0

/-- `weight_across_node`. -/
def weight_across_node (g : WGraph T) (from_node to_node cur_node : T) : Int :=
  edge_weight g from_node cur_node + edge_weight g cur_node to_node

/-- `add_shortcut`: append a new edge (id = from-node key) and flag the
first `from → to` edge (which may be a pre-existing parallel edge). -/
def add_shortcut (g : WGraph T) (from_node to_node : T) (weight : Int) : WGraph T :=
  (g.add_edge from_node from_node to_node weight).modify_edge from_node to_node
    (setFlag true)

/-- `contract_node` of contraction.rs (fuel feeds the local searches;
`none` models a local search that does not finish). -/
def contract_node (g : WGraph T) (node_id : T) (count_only : Bool) (fuel : Nat) :
    Option (Int × WGraph T) :=
  let adjacent := find_adjacent_nodes g node_id
  let ed0 : Int := (adjacent.length : Int) * 2 * -1
  let g1 := adjacent.foldl (fun gr a => change_arc_flag gr a node_id false) g
  (adjacent.foldlM (fun st from_node =>
      adjacent.foldlM (fun st2 to_node =>
        (local_shortest_path st2.2 from_node to_node 20
            (weight_across_node st2.2 from_node to_node node_id) fuel).map (fun pr =>
          if pr.1 > weight_across_node st2.2 from_node to_node node_id then
            (st2.1 + 1,
             if count_only then st2.2
             else add_shortcut st2.2 from_node to_node
               (weight_across_node st2.2 from_node to_node node_id))
          else st2)) st)
    (ed0, g1)).map (fun st =>
    if count_only then
      (st.1, adjacent.foldl (fun gr a => change_arc_flag gr a node_id true) st.2)
    else st)

/-- An invariant of a fallible fold: a measure every step preserves is
preserved by the whole fold. -/
theorem foldlM_eq_inv {α β γ : Type} (f : β → γ) (step : β → α → Option β)
    (hstep : ∀ st x r, step st x = some r → f r = f st) :
    ∀ (l : List α) (st r : β), List.foldlM step st l = some r → f r = f st := by
  intro l
  induction l with
  | nil =>
    intro st r h
    rw [List.foldlM_nil] at h
    obtain rfl := Option.some.inj h
    rfl
  | cons x xs ih =>
    intro st r h
    rw [List.foldlM_cons] at h
    rcases hs : step st x with _ | st'
    · rw [hs] at h
      cases h
    · rw [hs] at h
      simp only [Option.bind_eq_bind, Option.some_bind] at h
      exact (ih st' r h).trans (hstep st x st' hs)

/-- `contract_node` in `count_only` mode, the `if` branches resolved. -/
theorem contract_node_true (g : WGraph T) (v : T) (fuel : Nat) :
    contract_node g v true fuel =
      ((find_adjacent_nodes g v).foldlM (fun st from_node =>
          (find_adjacent_nodes g v).foldlM (fun st2 to_node =>
            (local_shortest_path st2.2 from_node to_node 20
                (weight_across_node st2.2 from_node to_node v) fuel).map (fun pr =>
              if pr.1 > weight_across_node st2.2 from_node to_node v then
                (st2.1 + 1, st2.2)
              else st2)) st)
        (((find_adjacent_nodes g v).length : Int) * 2 * -1,
         (find_adjacent_nodes g v).foldl (fun gr a => change_arc_flag gr a v false) g)).map
        (fun st =>
          (st.1, (find_adjacent_nodes g v).foldl
            (fun gr a => change_arc_flag gr a v true) st.2)) := by
  simp [contract_node]

/-- C7 (amended): `contract_node` with `count_only = true` restores the
graph exactly when, for every adjacent node `a`, the first `v → a` and
the first `a → v` edges are both flagged `true` (and the adjacency list
has no duplicates and does not contain `v` itself).  Without those
conditions the restore pass can set flags that were `false` before the
call, as `contract_node_count_only_cex` shows. -/
theorem contract_node_count_only_frame (g : WGraph T) (v : T) (fuel : Nat)
    (hnd : (find_adjacent_nodes g v).Nodup)
    (hv : v ∉ find_adjacent_nodes g v)
    (h1 : ∀ x ∈ find_adjacent_nodes g v,
      (((g.get_edges v).find? (fun e => e.to_id = x)).all (fun e => e.arc_flag)) = true)
    (h2 : ∀ x ∈ find_adjacent_nodes g v,
      (((g.get_edges x).find? (fun e => e.to_id = v)).all (fun e => e.arc_flag)) = true)
    (ed : Int) (g' : WGraph T)
    (hrun : contract_node g v true fuel = some (ed, g')) :
    g' = g := by
  rw [contract_node_true] at hrun
  obtain ⟨st, hst, hmap⟩ := Option.map_eq_some'.mp hrun
  have h2nd : st.2 = List.foldl (fun gr a => change_arc_flag gr a v false) g
      (find_adjacent_nodes g v) := by
    refine foldlM_eq_inv Prod.snd _ ?_ (find_adjacent_nodes g v) _ st hst
    intro st1 x r hr
    refine foldlM_eq_inv Prod.snd _ ?_ (find_adjacent_nodes g v) st1 r hr
    intro st2 y r2 hr2
    obtain ⟨pr, hpr, hfn⟩ := Option.map_eq_some'.mp hr2
    rw [← hfn]
    split <;> rfl
  have hg' : g' = List.foldl (fun gr a => change_arc_flag gr a v true) st.2
      (find_adjacent_nodes g v) := by
    have := congrArg Prod.snd hmap
    simpa using this.symm
  have h1' : ∀ x ∈ find_adjacent_nodes g v, ∀ e,
      (WGraph.get_edges g v).find? (fun e => e.to_id = x) = some e →
        e.arc_flag = true := by
    intro x hx e hf
    have := h1 x hx
    rw [hf] at this
    simpa [Option.all] using this
  have h2' : ∀ x ∈ find_adjacent_nodes g v, ∀ e,
      (WGraph.get_edges g x).find? (fun e => e.to_id = v) = some e →
        e.arc_flag = true := by
    intro x hx e hf
    have := h2 x hx
    rw [hf] at this
    simpa [Option.all] using this
  rw [hg', h2nd]
  exact remove_unremove_restore v (find_adjacent_nodes g v) g hnd hv h1' h2'

/-- A graph with asymmetric flags: the first (only) edge 1 → 2 is
flagged, the edge 2 → 1 is not. -/
def gC7 : WGraph Nat :=
  (((((⟨[], []⟩ : WGraph Nat).add_node 1 0 0).add_node 2 1 1).add_edge 11 1 2 5).add_edge
    12 2 1 7).modify_edge 1 2 (setFlag true)

/-- `contract_node` with `count_only = true` does not leave `gC7`
unchanged: the restore pass turns the flag of the edge 2 → 1 on although
it was off before the call. -/
theorem contract_node_count_only_cex :
    ((contract_node gC7 1 true 5).map (fun pr => pr.2)) ≠ some gC7 ∧
    ((contract_node gC7 1 true 5).map
        (fun pr => (pr.2.get_edges 2).map (fun e => e.arc_flag))) = some [true] ∧
    (gC7.get_edges 2).map (fun e => e.arc_flag) = [false] :=
  ⟨by decide, by decide, by decide⟩

/-- The graph `gC7` with both directions flagged, where `count_only`
really is a no-op. -/
def gC7w : WGraph Nat :=
  ((((((⟨[], []⟩ : WGraph Nat).add_node 1 0 0).add_node 2 1 1).add_edge 11 1 2 3).add_edge
    12 2 1 4).modify_edge 1 2 (setFlag true)).modify_edge 2 1 (setFlag true)

/-- The graph returned by the `count_only` run on `gC7w`. -/
def gC7wRes : WGraph Nat :=
  ((contract_node gC7w 1 true 5).map (fun pr => pr.2)).getD gC7w

theorem contract_node_count_only_frame_witness :
    (find_adjacent_nodes gC7w 1).Nodup ∧ (1 ∉ find_adjacent_nodes gC7w 1) ∧
      gC7wRes = gC7w :=
  ⟨by decide, by decide,
   contract_node_count_only_frame gC7w 1 5 (by decide) (by decide) (by decide)
     (by decide) (-2) gC7wRes (by decide)⟩

/-! # contraction.rs: the contraction order -/

/-- Pop the earliest minimal `edge_difference` entry of the modelled
`BinaryHeap<EdgeDifference>` (ordering flipped to a min-heap). -/
def popMinED {T : Type} : List (T × Int) → Option ((T × Int) × List (T × Int))
  | [] => none
  | c :: rest =>
    match popMinED rest with
    | none => some (c, [])
    | some (m, rest') => if c.2 ≤ m.2 then some (c, rest) else some (m, c :: rest')

theorem popMinED_none_iff {h : List (T × Int)} : popMinED h = none ↔ h = [] := by
  cases h with
  | nil => simp [popMinED]
  | cons c rest =>
    simp only [popMinED]
    cases hr : popMinED rest with
    | none => simp
    | some p =>
      rcases p with ⟨m, rest'⟩
      by_cases hc : c.2 ≤ m.2 <;> simp [hc]

theorem popMinED_perm {h : List (T × Int)} {c : T × Int}
    {h' : List (T × Int)} (hp : popMinED h = some (c, h')) : h.Perm (c :: h') := by
  induction h generalizing c h' with
  | nil => simp [popMinED] at hp
  | cons a rest ih =>
    rw [popMinED] at hp
    split at hp
    · rename_i heq
      have hnil : rest = [] := popMinED_none_iff.mp heq
      subst hnil
      simp only [Option.some.injEq, Prod.mk.injEq] at hp
      obtain ⟨rfl, rfl⟩ := hp
      exact List.Perm.refl _
    · rename_i m rest' heq
      split_ifs at hp with hc
      · simp only [Option.some.injEq, Prod.mk.injEq] at hp
        obtain ⟨rfl, rfl⟩ := hp
        exact List.Perm.refl _
      · simp only [Option.some.injEq, Prod.mk.injEq] at hp
        obtain ⟨rfl, rfl⟩ := hp
        exact (List.Perm.cons a (ih heq)).trans (List.Perm.swap m a _)

theorem filterMap_all_some {α β : Type} (f : α → Option β) :
    ∀ l : List α, (∀ a ∈ l, (f a).isSome = true) → (l.filterMap f).length = l.length := by
  intro l
  induction l with
  | nil => intro _; rfl
  | cons a rest ih =>
    intro h
    rcases hf : f a with _ | b
    · have := h a (by simp)
      rw [hf] at this
      cases this
    · rw [List.filterMap_cons, hf]
      simp only [List.length_cons]
      rw [ih (fun a ha => h a (by simp [ha]))]

theorem lookup_mem_nodup {β : Type} (m : List (T × β))
    (hnd : (m.map (fun kv => kv.1)).Nodup) (k : T) (val : β)
    (hm : (k, val) ∈ m) : lookupKV m k = some val := by
  induction m with
  | nil => simp at hm
  | cons kv rest ih
  =>
    rcases List.mem_cons.mp hm with heq | hm'
    · obtain rfl := heq.symm
      rw [lookupKV, if_pos rfl]
    · have hnd' : kv.1 ∉ rest.map (fun kv => kv.1) ∧
          (rest.map (fun kv => kv.1)).Nodup := List.nodup_cons.mp hnd
      have hne : ¬kv.1 = k := by
        intro hc
        exact hnd'.1 (hc ▸ List.mem_map.mpr ⟨(k, val), hm', rfl⟩)
      rw [lookupKV, if_neg hne, ih hnd'.2 hm']

theorem modify_edge_nodes (g : WGraph T) (f t : T) (fn : GEdge T → GEdge T) :
    (g.modify_edge f t fn).nodes = g.nodes := by
  rcases hl : lookupKV g.edges f with _ | es
  · rw [modify_none g f t fn hl]
  · rw [modify_some_edges g f t fn es hl]

theorem add_edge_nodes (g : WGraph T) (id f t : T) (w : Int) :
    (g.add_edge id f t w).nodes = g.nodes := by
  rw [WGraph.add_edge]
  split <;> rfl

theorem add_shortcut_nodes (g : WGraph T) (f t : T) (w : Int) :
    (add_shortcut g f t w).nodes = g.nodes := by
  rw [add_shortcut, modify_edge_nodes, add_edge_nodes]

theorem chg_nodes (g : WGraph T) (a v : T) (b : Bool) :
    (change_arc_flag g a v b).nodes = g.nodes := by
  rw [change_arc_flag, modify_edge_nodes, modify_edge_nodes]

theorem chg_foldl_nodes (v : T) (b : Bool) :
    ∀ (l : List T) (g : WGraph T),
    (List.foldl (fun gr a => change_arc_flag gr a v b) g l).nodes = g.nodes := by
  intro l
  induction l with
  | nil => intro g; rfl
  | cons x xs ih =>
    intro g
    simp only [List.foldl_cons]
    rw [ih, chg_nodes]

theorem contract_node_nodes (g : WGraph T) (v : T) (co : Bool) (fuel : Nat)
    (ed : Int) (g2 : WGraph T) (h : contract_node g v co fuel = some (ed, g2)) :
    g2.nodes = g.nodes := by
  simp only [contract_node] at h
  obtain ⟨st, hst, hmap⟩ := Option.map_eq_some'.mp h
  have hstn : st.2.nodes = g.nodes := by
    have hfold : st.2.nodes = (List.foldl (fun gr a => change_arc_flag gr a v false) g
        (find_adjacent_nodes g v)).nodes := by
      refine foldlM_eq_inv (fun st => st.2.nodes) _ ?_ (find_adjacent_nodes g v) _ st hst
      intro st1 x r hr
      refine foldlM_eq_inv (fun st => st.2.nodes) _ ?_ (find_adjacent_nodes g v) st1 r hr
      intro st2 y r2 hr2
      obtain ⟨pr, hpr, hfn⟩ := Option.map_eq_some'.mp hr2
      rw [← hfn]
      split
      · dsimp only
        split
        · rfl
        · exact add_shortcut_nodes _ _ _ _
      · rfl
    rw [hfold, chg_foldl_nodes]
  split at hmap
  · have hb := congrArg Prod.snd hmap
    dsimp only at hb
    rw [← hb, chg_foldl_nodes, hstn]
  · have hb := congrArg Prod.snd hmap
    dsimp only at hb
    rw [← hb, hstn]

theorem set_order_keys (g : WGraph T) (id : T) (v : Int) :
    (g.set_order id v).nodes.map (fun kv => kv.1) = g.nodes.map (fun kv => kv.1) := by
  rw [WGraph.set_order]
  dsimp only
  rw [List.map_map]
  refine List.map_congr_left ?_
  intro kv _
  dsimp only [Function.comp]
  split <;> rfl

theorem map_upd_id (id : T) (v : Int) (rest : List (T × GNode T))
    (h : ∀ kv ∈ rest, ¬kv.1 = id) :
    rest.map (fun kv => if kv.1 = id then (kv.1, { kv.2 with contraction_order := some v })
      else kv) = rest := by
  induction rest with
  | nil => rfl
  | cons kv rs ih =>
    rw [List.map_cons, if_neg (h kv (by simp)), ih (fun kv' hk => h kv' (by simp [hk]))]

theorem set_order_filterMap_list (id : T) (v : Int) :
    ∀ (l : List (T × GNode T)), (l.map (fun kv => kv.1)).Nodup →
    ∀ n : GNode T, (id, n) ∈ l → n.contraction_order = none →
    ((l.map (fun kv => if kv.1 = id then
        (kv.1, { kv.2 with contraction_order := some v }) else kv)).filterMap
      (fun kv => kv.2.contraction_order)).Perm
      (v :: l.filterMap (fun kv => kv.2.contraction_order)) := by
  intro l
  induction l with
  | nil =>
    intro _ n hm
    simp at hm
  | cons kv rest ih =>
    intro hnd n hm hnone
    have hnd' : kv.1 ∉ rest.map (fun kv => kv.1) ∧
        (rest.map (fun kv => kv.1)).Nodup := List.nodup_cons.mp hnd
    rcases List.mem_cons.mp hm with heq | hm'
    · obtain rfl := heq.symm
      have hrest : ∀ kv' ∈ rest, ¬kv'.1 = id := by
        intro kv' hk hc
        exact hnd'.1 (hc ▸ List.mem_map.mpr ⟨kv', hk, rfl⟩)
      rw [List.map_cons, if_pos rfl, map_upd_id id v rest hrest]
      rw [List.filterMap_cons, List.filterMap_cons]
      dsimp only
      rw [hnone]
    · have hne : ¬kv.1 = id := by
        intro hc
        exact hnd'.1 (hc ▸ List.mem_map.mpr ⟨(id, n), hm', rfl⟩)
      rw [List.map_cons, if_neg hne]
      rw [List.filterMap_cons, List.filterMap_cons]
      rcases ho : kv.2.contraction_order with _ | w
      · exact ih hnd'.2 n hm' hnone
      · exact ((ih hnd'.2 n hm' hnone).cons w).trans (List.Perm.swap v w _)

/-- The `while let Some(next_node) = order.pop()` loop of
`contract_graph` (contraction.rs lines 19-36), fuel-recursive.  `c` is
the running `contraction_order` counter. -/
def cg_loop (lsFuel : Nat) : Nat → WGraph T → List (T × Int) → Int → Option (WGraph T)
  | 0, _, _, _ => none
  | fuel + 1, g, heap, c =>
    match popMinED heap with
    | none => some g
    | some (next, heap') =>
      if ((g.get_node next.1).bind (fun n => n.contraction_order)).isSome then
        cg_loop lsFuel fuel g heap' c
      else
        match contract_node g next.1 true lsFuel with
        | none => none
        | some (ed, g2) =>
          if ed ≤ next.2 then
            match contract_node (g2.set_order next.1 (c + 1)) next.1 false lsFuel with
            | none => none
            | some pr => cg_loop lsFuel fuel pr.2 heap' (c + 1)
          else
            cg_loop lsFuel fuel g2 (heap' ++ [(next.1, ed)]) c

/-- `contract_graph` of contraction.rs. -/
def contract_graph (g : WGraph T) (order : List (T × Int)) (lsFuel loopFuel : Nat) :
    Option (WGraph T) :=
  cg_loop lsFuel loopFuel g order 0

/-- `preorder_nodes` of contraction.rs: one `count_only` contraction per
node, pushing `(node_id, edge_difference)`; the graph is threaded
because the count pass mutates (and imperfectly restores) it. -/
def preorder_nodes (g : WGraph T) (lsFuel : Nat) :
    Option (WGraph T × List (T × Int)) :=
  (g.all_nodes.map (fun n => n.id)).foldlM (fun st nid =>
    (contract_node st.1 nid true lsFuel).map (fun pr => (pr.2, st.2 ++ [(nid, pr.1)])))
    (g, [])

/-- `set_increasing_arc_flags` of contraction.rs; the `unwrap` calls on
missing contraction orders are modelled as `none`. -/
def set_increasing_arc_flags (g : WGraph T) : Option (WGraph T) :=
  (g.all_nodes.map (fun n => n.id)).foldlM (fun gr id =>
    match (gr.get_node id).bind (fun n => n.contraction_order) with
    | none => none
    | some current =>
      ((gr.get_edges id).map (fun e => e.to_id)).foldlM (fun gr2 cid =>
        match (gr2.get_node cid).bind (fun n => n.contraction_order) with
        | none => none
        | some co =>
          some (if current < co then gr2.modify_edge id cid (setFlag true) else gr2)) gr)
    g

/-- `preprocess_contraction` of contraction.rs. -/
def preprocess_contraction (g : WGraph T) (lsFuel loopFuel : Nat) : Option (WGraph T) :=
  (preorder_nodes g lsFuel).bind (fun pr =>
    (contract_graph pr.1 pr.2 lsFuel loopFuel).bind (fun g2 =>
      set_increasing_arc_flags g2))

/-- The contraction loop settles every remaining node: starting from a
state where orders `1..c` are already assigned and every unordered node
is still on the heap, a successful run assigns orders to all nodes,
ending with a permutation of `1..N`. -/
theorem cg_loop_spec (lsFuel : Nat) :
    ∀ (fuel : Nat) (g : WGraph T) (heap : List (T × Int)) (cn : Nat) (g' : WGraph T),
    NodesNodup g →
    (∀ p ∈ heap, p.1 ∈ g.nodes.map (fun kv => kv.1)) →
    (∀ kv ∈ g.nodes, kv.2.contraction_order = none → kv.1 ∈ heap.map (fun p => p.1)) →
    (g.nodes.filterMap (fun kv => kv.2.contraction_order)).Perm
      ((List.range cn).map (fun i : Nat => (i : Int) + 1)) →
    cg_loop lsFuel fuel g heap (cn : Int) = some g' →
    (∀ kv ∈ g'.nodes, (kv.2.contraction_order).isSome = true) ∧
    (g'.nodes.filterMap (fun kv => kv.2.contraction_order)).Perm
      ((List.range g'.nodes.length).map (fun i : Nat => (i : Int) + 1)) := by
  intro fuel
  induction fuel with
  | zero =>
    intro g heap cn g' _ _ _ _ hrun
    simp [cg_loop] at hrun
  | succ n ih =>
    intro g heap cn g' hnd hkeys hcov hperm hrun
    rw [cg_loop] at hrun
    rcases hpop : popMinED heap with _ | ⟨next, heap'⟩
    · simp only [hpop, Option.some.injEq] at hrun
      subst hrun
      have hnil : heap = [] := popMinED_none_iff.mp hpop
      subst hnil
      have hall : ∀ kv ∈ g.nodes, (kv.2.contraction_order).isSome = true := by
        intro kv hm
        rcases ho : kv.2.contraction_order with _ | w
        · have := hcov kv hm ho
          simp at this
        · rfl
      refine ⟨hall, ?_⟩
      have hlen : (g.nodes.filterMap (fun kv => kv.2.contraction_order)).length =
          g.nodes.length :=
        filterMap_all_some _ g.nodes hall
      have hcn : cn = g.nodes.length := by
        have h1 := hperm.length_eq
        rw [hlen, List.length_map, List.length_range] at h1
        omega
      rw [← hcn]
      exact hperm
    · simp only [hpop] at hrun
      have hnextmem : next ∈ heap := (popMinED_perm hpop).mem_iff.mpr (by simp)
      have hmemmap : ∀ x, x ∈ heap.map (fun p => p.1) →
          x = next.1 ∨ x ∈ heap'.map (fun p => p.1) := by
        intro x hx
        have := ((popMinED_perm hpop).map (fun p => p.1)).mem_iff.mp hx
        simpa using this
      by_cases hord : ((g.get_node next.1).bind (fun n => n.contraction_order)).isSome = true
      · rw [if_pos hord] at hrun
        refine ih g heap' cn g' hnd ?_ ?_ hperm hrun
        · intro p hp
          exact hkeys p ((popMinED_perm hpop).mem_iff.mpr (List.mem_cons_of_mem _ hp))
        · intro kv hm ho
          have hne : kv.1 ≠ next.1 := by
            intro hc
            have hl : lookupKV g.nodes next.1 = some kv.2 := by
              rw [← hc]
              exact lookup_mem_nodup g.nodes hnd kv.1 kv.2 hm
            rw [WGraph.get_node, hl] at hord
            simp [ho] at hord
          rcases hmemmap kv.1 (hcov kv hm ho) with hc | hc
          · exact absurd hc hne
          · exact hc
      · rw [if_neg hord] at hrun
        rcases hcn1 : contract_node g next.1 true lsFuel with _ | ⟨ed, g2⟩
        · simp only [hcn1] at hrun
          cases hrun
        · simp only [hcn1] at hrun
          have hg2n : g2.nodes = g.nodes :=
            contract_node_nodes g next.1 true lsFuel ed g2 hcn1
          by_cases hed : ed ≤ next.2
          · rw [if_pos hed] at hrun
            rcases hcn2 : contract_node (g2.set_order next.1 ((cn : Int) + 1)) next.1
                false lsFuel with _ | pr2
            · simp only [hcn2] at hrun
              cases hrun
            · simp only [hcn2] at hrun
              have hkey : next.1 ∈ g.nodes.map (fun kv => kv.1) := hkeys next hnextmem
              obtain ⟨kv0, hkv0, hfst⟩ := List.mem_map.mp hkey
              have hlook : lookupKV g.nodes next.1 = some kv0.2 := by
                rw [← hfst]
                exact lookup_mem_nodup g.nodes hnd kv0.1 kv0.2 hkv0
              have hnone : kv0.2.contraction_order = none := by
                rcases ho : kv0.2.contraction_order with _ | w
                · rfl
                · exact absurd (by rw [WGraph.get_node, hlook]; simp [ho]) hord
              have hpr2n : pr2.2.nodes = (g2.set_order next.1 ((cn : Int) + 1)).nodes :=
                contract_node_nodes _ _ _ _ pr2.1 pr2.2 hcn2
              have hsetn : (g2.set_order next.1 ((cn : Int) + 1)).nodes =
                  g.nodes.map (fun kv => if kv.1 = next.1 then
                    (kv.1, { kv.2 with contraction_order := some ((cn : Int) + 1) })
                    else kv) := by
                rw [WGraph.set_order, hg2n]
              have hkeys2 : pr2.2.nodes.map (fun kv => kv.1) =
                  g.nodes.map (fun kv => kv.1) := by
                rw [hpr2n, set_order_keys]
                rw [hg2n]
              have hcast : (cn : Int) + 1 = ((cn + 1 : Nat) : Int) := by push_cast; ring
              rw [hcast] at hrun
              refine ih pr2.2 heap' (cn + 1) g' ?_ ?_ ?_ ?_ hrun
              · show (pr2.2.nodes.map (fun kv => kv.1)).Nodup
                rw [hkeys2]
                exact hnd
              · intro p hp
                rw [hkeys2]
                exact hkeys p ((popMinED_perm hpop).mem_iff.mpr (List.mem_cons_of_mem _ hp))
              · intro kv hm ho
                rw [hpr2n, hsetn] at hm
                obtain ⟨kv1, hkv1, hupd⟩ := List.mem_map.mp hm
                by_cases hc : kv1.1 = next.1
                · rw [if_pos hc] at hupd
                  rw [← hupd] at ho
                  cases ho
                · rw [if_neg hc] at hupd
                  subst hupd
                  rcases hmemmap kv1.1 (hcov kv1 hkv1 ho) with hcc | hcc
                  · exact absurd hcc hc
                  · exact hcc
              · have hfm : pr2.2.nodes.filterMap (fun kv => kv.2.contraction_order) =
                    (g.nodes.map (fun kv => if kv.1 = next.1 then
                      (kv.1, { kv.2 with contraction_order := some ((cn : Int) + 1) })
                      else kv)).filterMap (fun kv => kv.2.contraction_order) := by
                  rw [hpr2n, hsetn]
                rw [hfm]
                have hmem0 : (next.1, kv0.2) ∈ g.nodes := by
                  rw [← hfst]
                  exact hkv0
                have hsp := set_order_filterMap_list next.1 ((cn : Int) + 1) g.nodes hnd
                  kv0.2 hmem0 hnone
                refine hsp.trans ?_
                refine (List.Perm.cons _ hperm).trans ?_
                rw [List.range_succ, List.map_append]
                exact (List.perm_append_singleton _ _).symm
          · rw [if_neg hed] at hrun
            refine ih g2 (heap' ++ [(next.1, ed)]) cn g' ?_ ?_ ?_ ?_ hrun
            · show (g2.nodes.map (fun kv => kv.1)).Nodup
              rw [hg2n]
              exact hnd
            · intro p hp
              rw [hg2n]
              rcases List.mem_append.mp hp with hp' | hp'
              · exact hkeys p ((popMinED_perm hpop).mem_iff.mpr (List.mem_cons_of_mem _ hp'))
              · have hpe : p = (next.1, ed) := by simpa using hp'
                rw [hpe]
                exact hkeys next hnextmem
            · intro kv hm ho
              rw [hg2n] at hm
              rw [List.map_append]
              rcases hmemmap kv.1 (hcov kv hm ho) with hc | hc
              · refine List.mem_append.mpr (Or.inr ?_)
                simp [hc]
              · exact List.mem_append.mpr (Or.inl hc)
            · have hfm2 : g2.nodes.filterMap (fun kv => kv.2.contraction_order) =
                  g.nodes.filterMap (fun kv => kv.2.contraction_order) := by
                rw [hg2n]
              rw [hfm2]
              exact hperm

/-- `preorder_nodes` keeps the node map and pushes exactly the visited
ids, in order. -/
theorem preorder_fold (lsFuel : Nat) :
    ∀ (ids : List T) (st r : WGraph T × List (T × Int)),
    List.foldlM (fun st nid =>
      (contract_node st.1 nid true lsFuel).map
        (fun pr => (pr.2, st.2 ++ [(nid, pr.1)]))) st ids = some r →
    r.1.nodes = st.1.nodes ∧
      r.2.map (fun p => p.1) = st.2.map (fun p => p.1) ++ ids := by
  intro ids
  induction ids with
  | nil =>
    intro st r h
    rw [List.foldlM_nil] at h
    obtain rfl := Option.some.inj h
    simp
  | cons x xs ih =>
    intro st r h
    rw [List.foldlM_cons] at h
    rcases hs : contract_node st.1 x true lsFuel with _ | pr
    · rw [hs] at h
      simp at h
    · rw [hs] at h
      simp only [Option.map_some', Option.bind_eq_bind, Option.some_bind] at h
      obtain ⟨h1, h2⟩ := ih _ r h
      constructor
      · rw [h1]
        exact contract_node_nodes st.1 x true lsFuel pr.1 pr.2 hs
      · rw [h2]
        simp

/-- `set_increasing_arc_flags` never touches the node map. -/
theorem sia_nodes (g g' : WGraph T) (h : set_increasing_arc_flags g = some g') :
    g'.nodes = g.nodes := by
  rw [set_increasing_arc_flags] at h
  refine foldlM_eq_inv WGraph.nodes _ ?_ _ g g' h
  intro gr id r hr
  rcases ho : (gr.get_node id).bind (fun n => n.contraction_order) with _ | current
  · rw [ho] at hr
    cases hr
  · rw [ho] at hr
    refine foldlM_eq_inv WGraph.nodes _ ?_ _ gr r hr
    intro gr2 cid r2 hr2
    rcases ho2 : (gr2.get_node cid).bind (fun n => n.contraction_order) with _ | co
    · rw [ho2] at hr2
      cases hr2
    · rw [ho2] at hr2
      obtain rfl := Option.some.inj hr2
      split
      · exact modify_edge_nodes _ _ _ _
      · rfl

/-- Main content of claim C3, shared with the transit-node development:
a successful `preprocess_contraction` run assigns every node an order,
and the orders form a permutation of `1..N`. -/
theorem preprocess_orders_aux (g : WGraph T) (lsFuel loopFuel : Nat)
    (hwf : NodesWF g) (hnd : NodesNodup g)
    (hinit : ∀ kv ∈ g.nodes, kv.2.contraction_order = none)
    (g' : WGraph T)
    (hrun : preprocess_contraction g lsFuel loopFuel = some g') :
    (∀ kv ∈ g'.nodes, (kv.2.contraction_order).isSome = true) ∧
    (g'.nodes.filterMap (fun kv => kv.2.contraction_order)).Perm
      ((List.range g'.nodes.length).map (fun i : Nat => (i : Int) + 1)) := by
  rw [preprocess_contraction] at hrun
  obtain ⟨pr, hpre, hrest⟩ := Option.bind_eq_some.mp hrun
  obtain ⟨g2, hcg, hsia⟩ := Option.bind_eq_some.mp hrest
  rw [preorder_nodes] at hpre
  obtain ⟨hn1, hids⟩ := preorder_fold lsFuel (g.all_nodes.map (fun n => n.id)) (g, []) pr hpre
  have hids' : pr.2.map (fun p => p.1) = g.nodes.map (fun kv => kv.1) := by
    rw [hids]
    simp only [List.nil_append]
    rw [WGraph.all_nodes, List.map_map]
    refine List.map_congr_left ?_
    intro kv hkv
    exact hwf kv hkv
  have hloop := cg_loop_spec lsFuel loopFuel pr.1 pr.2 0 g2 ?_ ?_ ?_ ?_ ?_
  · have hn3 : g'.nodes = g2.nodes := sia_nodes g2 g' hsia
    rw [hn3]
    exact hloop
  · show (pr.1.nodes.map (fun kv => kv.1)).Nodup
    rw [hn1]
    exact hnd
  · intro p hp
    rw [hn1, ← hids']
    exact List.mem_map.mpr ⟨p, hp, rfl⟩
  · intro kv hm _
    rw [hids']
    rw [hn1] at hm
    exact List.mem_map.mpr ⟨kv, hm, rfl⟩
  · have : pr.1.nodes.filterMap (fun kv => kv.2.contraction_order) = [] := by
      rw [hn1]
      rw [List.filterMap_eq_nil]
      intro kv hkv
      exact hinit kv hkv
    rw [this]
    simp
  · exact hcg

/-- C3: after a successful `preprocess_contraction` run on a graph with
well-formed, duplicate-free nodes that initially carry no contraction
order, every node's `contraction_order` is `Some`, and the assigned
orders are a permutation of `1..N` where `N` is the number of nodes. -/
theorem preprocess_contraction_orders (g : WGraph T) (lsFuel loopFuel : Nat)
    (hwf : NodesWF g) (hnd : NodesNodup g)
    (hinit : ∀ kv ∈ g.nodes, kv.2.contraction_order = none)
    (g' : WGraph T)
    (hrun : preprocess_contraction g lsFuel loopFuel = some g') :
    (∀ kv ∈ g'.nodes, (kv.2.contraction_order).isSome = true) ∧
    (g'.nodes.filterMap (fun kv => kv.2.contraction_order)).Perm
      ((List.range g'.nodes.length).map (fun i : Nat => (i : Int) + 1)) :=
  preprocess_orders_aux g lsFuel loopFuel hwf hnd hinit g' hrun

/-- Two nodes with a symmetric flagged edge pair, no contraction orders. -/
def gC3 : WGraph Nat :=
  ((((((⟨[], []⟩ : WGraph Nat).add_node 1 0 0).add_node 2 1 1).add_edge 11 1 2 1).add_edge
    12 2 1 1).modify_edge 1 2 (setFlag true)).modify_edge 2 1 (setFlag true)

/-- The graph after full contraction preprocessing. -/
def gC3f : WGraph Nat := (preprocess_contraction gC3 5 8).getD gC3

theorem preprocess_contraction_orders_witness :
    NodesWF gC3 ∧ NodesNodup gC3 ∧
      ((∀ kv ∈ gC3f.nodes, (kv.2.contraction_order).isSome = true) ∧
        (gC3f.nodes.filterMap (fun kv => kv.2.contraction_order)).Perm
          ((List.range gC3f.nodes.length).map (fun i : Nat => (i : Int) + 1))) :=
  ⟨by unfold NodesWF; decide, by unfold NodesNodup; decide,
   preprocess_contraction_orders gC3 5 8 (by unfold NodesWF; decide)
     (by unfold NodesNodup; decide) (by decide) gC3f (by decide)⟩

/-! # transit_nodes.rs -/

/-- The `(contraction_order.unwrap(), id)` pair list of
`transit_nodes_contraction`; a missing order (the `unwrap` panic) is
`none`. -/
def ordered_pairs : List (GNode T) → Option (List (Int × T))
  | [] => some []
  | n :: rest =>
    match n.contraction_order with
    | none => none
    | some o => (ordered_pairs rest).map (fun l => (o, n.id) :: l)

/-- Stable insertion step of `sort_by(|a, b| b.0.cmp(&a.0))` (descending
by the first component). -/
def insertDesc (p : Int × T) : List (Int × T) → List (Int × T)
  | [] => [p]
  | q :: rest => if q.1 < p.1 then p :: q :: rest else q :: insertDesc p rest

/-- The descending stable sort of `transit_nodes_contraction`. -/
def sortDesc : List (Int × T) → List (Int × T)
  | [] => []
  | p :: rest => insertDesc p (sortDesc rest)

/-- `transit_nodes_contraction` of transit_nodes.rs.  The
`(len as f64).sqrt().floor() as usize` count is modelled as `Nat.sqrt`
(exact for every machine-representable node count). -/
def transit_nodes_contraction (g : WGraph T) (lsFuel loopFuel : Nat) :
    Option (WGraph T × List T) :=
  (preprocess_contraction g lsFuel loopFuel).bind (fun g2 =>
    (ordered_pairs g2.all_nodes).map (fun nodes =>
      (g2, ((sortDesc nodes).map (fun p => p.2)).take (Nat.sqrt g.all_nodes.length))))

theorem insertDesc_perm (p : Int × T) : ∀ l, (insertDesc p l).Perm (p :: l) := by
  intro l
  induction l with
  | nil => exact List.Perm.refl _
  | cons q rest ih =>
    rw [insertDesc]
    split_ifs with hq
    · exact List.Perm.refl _
    · exact (List.Perm.cons q ih).trans (List.Perm.swap p q _)

theorem sortDesc_perm : ∀ l : List (Int × T), (sortDesc l).Perm l := by
  intro l
  induction l with
  | nil => exact List.Perm.refl _
  | cons p rest ih =>
    rw [sortDesc]
    exact (insertDesc_perm p (sortDesc rest)).trans (List.Perm.cons p ih)

theorem insertDesc_head (p : Int × T) (l : List (Int × T)) :
    ∀ x, (insertDesc p l).head? = some x → x = p ∨ l.head? = some x := by
  intro x h
  cases l with
  | nil =>
    rw [insertDesc] at h
    exact Or.inl (Option.some.inj h).symm
  | cons q rest =>
    rw [insertDesc] at h
    split_ifs at h with hq
    · exact Or.inl (Option.some.inj h).symm
    · exact Or.inr (by simpa using h)

theorem insertDesc_sorted (p : Int × T) :
    ∀ l, List.Chain' (fun a b : Int × T => b.1 ≤ a.1) l →
    List.Chain' (fun a b : Int × T => b.1 ≤ a.1) (insertDesc p l) := by
  intro l
  induction l with
  | nil => intro _; simp [insertDesc]
  | cons q rest ih =>
    intro hc
    obtain ⟨hhead, hrest⟩ := List.chain'_cons'.mp hc
    rw [insertDesc]
    split_ifs with hq
    · refine List.chain'_cons'.mpr ⟨?_, hc⟩
      intro y hy
      simp only [List.head?_cons, Option.mem_def, Option.some.injEq] at hy
      subst hy
      omega
    · refine List.chain'_cons'.mpr ⟨?_, ih hrest⟩
      intro y hy
      rcases insertDesc_head p rest y hy with rfl | hy'
      · omega
      · exact hhead y hy'

theorem sortDesc_sorted :
    ∀ l : List (Int × T), List.Chain' (fun a b : Int × T => b.1 ≤ a.1) (sortDesc l) := by
  intro l
  induction l with
  | nil => simp [sortDesc]
  | cons p rest ih =>
    rw [sortDesc]
    exact insertDesc_sorted p (sortDesc rest) ih

theorem ordered_pairs_spec :
    ∀ (L : List (GNode T)) (l : List (Int × T)), ordered_pairs L = some l →
    l.map (fun p => p.1) = L.filterMap (fun n => n.contraction_order) ∧
    l.map (fun p => p.2) = L.map (fun n => n.id) ∧
    (∀ nd ∈ L, ∀ o : Int, nd.contraction_order = some o → (o, nd.id) ∈ l) := by
  intro L
  induction L with
  | nil =>
    intro l h
    obtain rfl := Option.some.inj h
    exact ⟨rfl, rfl, by simp⟩
  | cons n rest ih =>
    intro l h
    rw [ordered_pairs] at h
    rcases ho : n.contraction_order with _ | o
    · rw [ho] at h
      cases h
    · rw [ho] at h
      obtain ⟨l', hl', heq⟩ := Option.map_eq_some'.mp h
      obtain ⟨h1, h2, h3⟩ := ih l' hl'
      subst heq
      refine ⟨?_, ?_, ?_⟩
      · rw [List.map_cons, h1, List.filterMap_cons, ho]
      · rw [List.map_cons, h2, List.map_cons]
      · intro nd hnd o' ho'
        rcases List.mem_cons.mp hnd with rfl | hnd'
        · rw [ho] at ho'
          obtain rfl := Option.some.inj ho'
          simp
        · exact List.mem_cons_of_mem _ (h3 nd hnd' o' ho')

theorem set_order_keyids (g : WGraph T) (id : T) (v : Int) :
    (g.set_order id v).nodes.map (fun kv => (kv.1, (kv.2).id)) =
      g.nodes.map (fun kv => (kv.1, (kv.2).id)) := by
  rw [WGraph.set_order]
  dsimp only
  rw [List.map_map]
  refine List.map_congr_left ?_
  intro kv _
  dsimp only [Function.comp]
  split <;> rfl

theorem cg_loop_keyids (lsFuel : Nat) :
    ∀ (fuel : Nat) (g : WGraph T) (heap : List (T × Int)) (c : Int) (g' : WGraph T),
    cg_loop lsFuel fuel g heap c = some g' →
    g'.nodes.map (fun kv => (kv.1, (kv.2).id)) =
      g.nodes.map (fun kv => (kv.1, (kv.2).id)) := by
  intro fuel
  induction fuel with
  | zero =>
    intro g heap c g' hrun
    simp [cg_loop] at hrun
  | succ n ih =>
    intro g heap c g' hrun
    rw [cg_loop] at hrun
    rcases hpop : popMinED heap with _ | ⟨next, heap'⟩
    · simp only [hpop, Option.some.injEq] at hrun
      subst hrun
      rfl
    · simp only [hpop] at hrun
      split_ifs at hrun with hord
      · exact ih g heap' c g' hrun
      · rcases hcn1 : contract_node g next.1 true lsFuel with _ | ⟨ed, g2⟩
        · simp only [hcn1] at hrun
          cases hrun
        · simp only [hcn1] at hrun
          have hg2n : g2.nodes = g.nodes :=
            contract_node_nodes g next.1 true lsFuel ed g2 hcn1
          split_ifs at hrun with hed
          · rcases hcn2 : contract_node (g2.set_order next.1 (c + 1)) next.1
                false lsFuel with _ | pr2
            · simp only [hcn2] at hrun
              cases hrun
            · simp only [hcn2] at hrun
              have h1 := ih pr2.2 heap' (c + 1) g' hrun
              have h2 : pr2.2.nodes = (g2.set_order next.1 (c + 1)).nodes :=
                contract_node_nodes _ _ _ _ pr2.1 pr2.2 hcn2
              rw [h1, h2, set_order_keyids, hg2n]
          · have h1 := ih g2 (heap' ++ [(next.1, ed)]) c g' hrun
            rw [h1, hg2n]

/-- `preprocess_contraction` preserves every node's key and id. -/
theorem preprocess_keyids (g : WGraph T) (lsFuel loopFuel : Nat) (g' : WGraph T)
    (hrun : preprocess_contraction g lsFuel loopFuel = some g') :
    g'.nodes.map (fun kv => (kv.1, (kv.2).id)) =
      g.nodes.map (fun kv => (kv.1, (kv.2).id)) := by
  rw [preprocess_contraction] at hrun
  obtain ⟨pr, hpre, hrest⟩ := Option.bind_eq_some.mp hrun
  obtain ⟨g2, hcg, hsia⟩ := Option.bind_eq_some.mp hrest
  rw [preorder_nodes] at hpre
  obtain ⟨hn1, _⟩ := preorder_fold lsFuel (g.all_nodes.map (fun n => n.id)) (g, []) pr hpre
  have h2 := cg_loop_keyids lsFuel loopFuel pr.1 pr.2 0 g2 hcg
  have h3 : g'.nodes = g2.nodes := sia_nodes g2 g' hsia
  rw [h3, h2, hn1]

instance : IsTrans (Int × T) fun a b : Int × T => b.1 ≤ a.1 :=
  ⟨fun _ _ _ h1 h2 => le_trans h2 h1⟩

/-- C8: `transit_nodes_contraction` returns `⌊√N⌋` distinct node keys —
the top of the contraction order: every returned node's order is
strictly greater than every non-returned node's (the square root of the
f64 conversion is modelled as `Nat.sqrt`). -/
theorem transit_nodes_top_by_order (g : WGraph T) (lsFuel loopFuel : Nat)
    (hwf : NodesWF g) (hnd : NodesNodup g)
    (hinit : ∀ kv ∈ g.nodes, kv.2.contraction_order = none)
    (g2 : WGraph T) (tns : List T)
    (hrun : transit_nodes_contraction g lsFuel loopFuel = some (g2, tns)) :
    tns.Nodup ∧ tns.length = Nat.sqrt g.all_nodes.length ∧
    (∀ m ∈ g2.all_nodes, m.id ∈ tns → ∀ nd ∈ g2.all_nodes, nd.id ∉ tns →
      ∃ om onv : Int, m.contraction_order = some om ∧ nd.contraction_order = some onv ∧
        onv < om) := by
  rw [transit_nodes_contraction] at hrun
  obtain ⟨g2', hpre, hmap⟩ := Option.bind_eq_some.mp hrun
  obtain ⟨l, hpairs, heq⟩ := Option.map_eq_some'.mp hmap
  injection heq with heq1 heq2
  subst heq1
  subst heq2
  obtain ⟨hall, hperm⟩ := preprocess_orders_aux g lsFuel loopFuel hwf hnd hinit g2' hpre
  obtain ⟨hfst, hsnd, hmemp⟩ := ordered_pairs_spec g2'.all_nodes l hpairs
  have hfn : g2'.all_nodes.filterMap (fun n => n.contraction_order) =
      g2'.nodes.filterMap (fun kv => (kv.2).contraction_order) := by
    rw [WGraph.all_nodes, List.filterMap_map]
    rfl
  have hordnodup : (l.map (fun p => p.1)).Nodup := by
    rw [hfst, hfn]
    refine hperm.nodup_iff.mpr ?_
    refine List.Nodup.map ?_ (List.nodup_range _)
    intro a b hab
    dsimp only at hab
    omega
  have hkeyids := preprocess_keyids g lsFuel loopFuel g2' hpre
  have hidsg2 : g2'.all_nodes.map (fun n => n.id) = g.nodes.map (fun kv => kv.1) := by
    rw [WGraph.all_nodes, List.map_map]
    have hsnds := congrArg (List.map Prod.snd) hkeyids
    rw [List.map_map, List.map_map] at hsnds
    have hg : g.nodes.map (fun kv => (kv.2).id) = g.nodes.map (fun kv => kv.1) :=
      List.map_congr_left (fun kv hkv => hwf kv hkv)
    exact hsnds.trans hg
  have hidnodup : (l.map (fun p => p.2)).Nodup := by
    rw [hsnd, hidsg2]
    exact hnd
  have hsperm : (sortDesc l).Perm l := sortDesc_perm l
  have hsnodupfst : ((sortDesc l).map (fun p => p.1)).Nodup :=
    ((hsperm.map (fun p => p.1)).nodup_iff).mpr hordnodup
  have hsnodupsnd : ((sortDesc l).map (fun p => p.2)).Nodup :=
    ((hsperm.map (fun p => p.2)).nodup_iff).mpr hidnodup
  have hlen_l : l.length = g.all_nodes.length := by
    have h1 := congrArg List.length hsnd
    rw [List.length_map, List.length_map] at h1
    have h2 := congrArg List.length hkeyids
    rw [List.length_map, List.length_map] at h2
    rw [h1, WGraph.all_nodes, WGraph.all_nodes, List.length_map, List.length_map]
    exact h2
  have hslen : (sortDesc l).length = g.all_nodes.length := by
    rw [hsperm.length_eq, hlen_l]
  refine ⟨?_, ?_, ?_⟩
  · exact (List.Sublist.nodup (List.take_sublist _ _) hsnodupsnd)
  · rw [List.length_take, List.length_map, hslen]
    exact Nat.min_eq_left (Nat.sqrt_le_self _)
  · intro m hm hmid nd hnd2 hndid
    obtain ⟨kvm, hkvm, hkm⟩ := List.mem_map.mp (by rw [WGraph.all_nodes] at hm; exact hm)
    obtain ⟨kvn, hkvn, hkn⟩ := List.mem_map.mp (by rw [WGraph.all_nodes] at hnd2; exact hnd2)
    have hom : (m.contraction_order).isSome = true := by
      rw [← hkm]
      exact hall kvm hkvm
    have hon : (nd.contraction_order).isSome = true := by
      rw [← hkn]
      exact hall kvn hkvn
    rcases hOm : m.contraction_order with _ | om
    · rw [hOm] at hom
      cases hom
    rcases hOn : nd.contraction_order with _ | onv
    · rw [hOn] at hon
      cases hon
    have hpm_s : (om, m.id) ∈ sortDesc l := hsperm.mem_iff.mpr (hmemp m hm om hOm)
    have hpn_s : (onv, nd.id) ∈ sortDesc l := hsperm.mem_iff.mpr (hmemp nd hnd2 onv hOn)
    have hsplit := List.take_append_drop (Nat.sqrt g.all_nodes.length) (sortDesc l)
    have hcases : (onv, nd.id) ∈ (sortDesc l).take (Nat.sqrt g.all_nodes.length) ∨
        (onv, nd.id) ∈ (sortDesc l).drop (Nat.sqrt g.all_nodes.length) := by
      refine List.mem_append.mp ?_
      rw [hsplit]
      exact hpn_s
    rcases hcases with hin | hdrop
    · exact absurd (by
        rw [← List.map_take]
        exact List.mem_map.mpr ⟨(onv, nd.id), hin, rfl⟩) hndid
    obtain ⟨p, hpt, hpid⟩ : ∃ p ∈ (sortDesc l).take (Nat.sqrt g.all_nodes.length),
        p.2 = m.id := by
      rw [← List.map_take] at hmid
      obtain ⟨p, hp, he⟩ := List.mem_map.mp hmid
      exact ⟨p, hp, he⟩
    have hps : p ∈ sortDesc l := (List.take_sublist _ _).subset hpt
    have hpe : p = (om, m.id) :=
      List.inj_on_of_nodup_map hsnodupsnd hps hpm_s (by rw [hpid])
    have hpw : List.Pairwise (fun a b : Int × T => b.1 ≤ a.1) (sortDesc l) :=
      List.chain'_iff_pairwise.mp (sortDesc_sorted l)
    have hpw2 : List.Pairwise (fun a b : Int × T => b.1 ≤ a.1)
        ((sortDesc l).take (Nat.sqrt g.all_nodes.length) ++
          (sortDesc l).drop (Nat.sqrt g.all_nodes.length)) := by
      rw [hsplit]
      exact hpw
    obtain ⟨_, _, hcross⟩ := List.pairwise_append.mp hpw2
    have hle0 := hcross p hpt (onv, nd.id) hdrop
    rw [hpe] at hle0
    have hle : onv ≤ om := by simpa using hle0
    have hneq : onv ≠ om := by
      intro hc
      have hpq : (om, m.id) = (onv, nd.id) :=
        List.inj_on_of_nodup_map hsnodupfst hpm_s hpn_s (by rw [hc])
      have hmn : m.id = nd.id := (Prod.mk.injEq _ _ _ _ |>.mp hpq).2
      exact hndid (hmn ▸ hmid)
    exact ⟨om, onv, rfl, rfl, lt_of_le_of_ne hle hneq⟩

/-- The pair list and transit-node list computed on `gC3`
(√2 = 1 transit node); the square root is kept symbolic because
`Nat.sqrt` does not reduce in the kernel. -/
def opC8 : List (Int × Nat) := (ordered_pairs gC3f.all_nodes).getD []

def tnsC8 : List Nat :=
  ((sortDesc opC8).map (fun p => p.2)).take (Nat.sqrt gC3.all_nodes.length)

theorem transit_nodes_top_by_order_witness :
    NodesWF gC3 ∧ NodesNodup gC3 ∧
      (tnsC8.Nodup ∧ tnsC8.length = Nat.sqrt gC3.all_nodes.length ∧
        (∀ m ∈ gC3f.all_nodes, m.id ∈ tnsC8 → ∀ nd ∈ gC3f.all_nodes, nd.id ∉ tnsC8 →
          ∃ om onv : Int, m.contraction_order = some om ∧
            nd.contraction_order = some onv ∧ onv < om)) :=
  ⟨by unfold NodesWF; decide, by unfold NodesNodup; decide,
   transit_nodes_top_by_order gC3 5 8 (by unfold NodesWF; decide)
     (by unfold NodesNodup; decide) (by decide) gC3f tnsC8 rfl⟩
